import Mathlib

/-!
Verification of the Akumuli ingestion core (sequencer.cpp) against its
natural-language specification.  The C++ source is embedded shallowly:
timestamps, parameter ids and payload offsets are modelled as `Nat`
(the source uses unsigned 64-bit values and performs no overflowing
arithmetic on them: only comparisons, subtraction guarded by `<`, and
division by the window size), sorted runs are lists of values, and the
sequencer state is an explicit structure threaded through the
operations.  The `throw runtime_error` paths of the source are modelled
by `Option` (`none` = exception), and the single `progress_flag_` mutex
by a boolean field: in the sequential embedding the mutex is held
exactly while a lock token returned by `add`/`close` is outstanding.
-/

namespace Akumuli

/-- A time-series value: `TimeSeriesValue` from sequencer.cpp.  `key_` is the
pair `(ts, id)` and `value` is the payload (an `EntryOffset`).  The C++
`operator<` compares `key_` only. -/
structure TimeSeriesValue where
  ts : Nat
  id : Nat
  value : Nat
deriving Repr, DecidableEq

/-- `operator< (TimeSeriesValue, TimeSeriesValue)`: lexicographic comparison
of the `(timestamp, param_id)` keys; the payload is not part of the key. -/
def tsvLtB (a b : TimeSeriesValue) : Bool :=
  decide (a.ts < b.ts ∨ (a.ts = b.ts ∧ a.id < b.id))

/-- Non-strict key order, defined as the negation of the strict order
(the orders are total). -/
def keyLeB (a b : TimeSeriesValue) : Bool := !tsvLtB b a

/-- Reversed non-strict key order. -/
def keyGeB (a b : TimeSeriesValue) : Bool := keyLeB b a

/-- Modelled from the spec: `AKU_LIMITS_MAX_ID` (`MAX_PARAM_ID`), defined in
akumuli_def.h which is not part of the sources; the spec uses it as the
largest possible parameter id, so we take the largest unsigned 64-bit
value. -/
def AKU_LIMITS_MAX_ID : Nat := 18446744073709551615

/-- The largest unsigned 64-bit value, used as the `upperbound` of an
unrestricted search query. -/
def U64MAX : Nat := 18446744073709551615

/-- A sorted run: an append-only buffer of values whose keys are
non-decreasing. -/
abbrev SortedRun := List TimeSeriesValue

/-- `run.back()`: the last element of a run.  Runs are non-empty in every
reachable state (they are created with one element and only appended to);
the default value only makes the function total. -/
def runLast (r : SortedRun) : TimeSeriesValue := r.getLastD ⟨0, 0, 0⟩

/-- A run is sorted when every earlier element's key is `≤` every later
element's key.  (For transitive relations this is equivalent to the
adjacent-pairs invariant `r[i].key ≤ r[i+1].key` of the spec.) -/
def RunSorted (r : SortedRun) : Prop :=
  r.Pairwise (fun a b => keyLeB a b = true)

instance (r : SortedRun) : Decidable (RunSorted r) :=
  inferInstanceAs (Decidable (r.Pairwise fun a b => keyLeB a b = true))

theorem tsvLtB_iff (a b : TimeSeriesValue) :
    tsvLtB a b = true ↔ (a.ts < b.ts ∨ (a.ts = b.ts ∧ a.id < b.id)) := by
  simp [tsvLtB]

theorem keyLeB_iff (a b : TimeSeriesValue) :
    keyLeB a b = true ↔ (a.ts < b.ts ∨ (a.ts = b.ts ∧ a.id ≤ b.id)) := by
  simp only [keyLeB, Bool.not_eq_true', tsvLtB, decide_eq_false_iff_not]
  omega

theorem keyLeB_refl (a : TimeSeriesValue) : keyLeB a a = true := by
  simp only [keyLeB, Bool.not_eq_true', tsvLtB, decide_eq_false_iff_not]
  omega

theorem keyLeB_trans {a b c : TimeSeriesValue}
    (h1 : keyLeB a b = true) (h2 : keyLeB b c = true) : keyLeB a c = true := by
  simp only [keyLeB, Bool.not_eq_true', tsvLtB, decide_eq_false_iff_not] at *
  omega

theorem keyLeB_total (a b : TimeSeriesValue) :
    keyLeB a b = true ∨ keyLeB b a = true := by
  simp only [keyLeB, Bool.not_eq_true', tsvLtB, decide_eq_false_iff_not]
  omega

theorem not_tsvLtB_iff_keyLeB (a b : TimeSeriesValue) :
    tsvLtB a b = false ↔ keyLeB b a = true := by
  simp [keyLeB]

/-! ### The k-way merge engine (`kway_merge` in sequencer.cpp)

The C++ function keeps one heap entry `(value, run_index)` per
non-exhausted run — always that run's current head in the requested
iteration direction — and repeatedly pops the heap's top.  The boost
skew heap with comparator `MergePred` pops, in the forward direction,
the least pair `(value, run_index)` (tuple comparison: value key first,
then run index, so the tie-break on equal keys is by smallest run
index), and in the backward direction the greatest pair (tie-break by
largest run index).  We model one loop iteration as selecting the
preferred element among the current heads. -/

/-- The heap-item order of `kway_merge`: C++ `tuple<value_t, int>`
comparison, where `value_t = TimeSeriesValue` compares by key only and
ties fall through to the run index. -/
def heapItemLt (a b : TimeSeriesValue × Nat) : Bool :=
  tsvLtB a.1 b.1 || (!tsvLtB a.1 b.1 && !tsvLtB b.1 a.1 && decide (a.2 < b.2))

/-- The reversed heap-item order, used for the backward direction. -/
def heapItemGt (a b : TimeSeriesValue × Nat) : Bool := heapItemLt b a

/-- Fold over a candidate list keeping the preferred element (`pref x y`
means `x` is strictly preferred to `y`).  On a list of heap items with
pairwise-distinct run indices this is exactly the element the heap would
pop. -/
def pickBest (pref : TimeSeriesValue × Nat → TimeSeriesValue × Nat → Bool)
    (x : TimeSeriesValue × Nat) : List (TimeSeriesValue × Nat) → TimeSeriesValue × Nat
  | [] => x
  | y :: t => pickBest pref (if pref y x then y else x) t

/-- The current heads of the runs, paired with their run indices starting
at `k`: the contents of the merge heap at the start of a loop
iteration. -/
def headsFrom (k : Nat) : List SortedRun → List (TimeSeriesValue × Nat)
  | [] => []
  | [] :: rs => headsFrom (k + 1) rs
  | (v :: _) :: rs => (v, k) :: headsFrom (k + 1) rs

/-- Total number of not-yet-emitted elements. -/
def runsTotal (rs : List SortedRun) : Nat := (rs.map List.length).sum

/-- The merge loop of `kway_merge`: while some run is non-exhausted, pop
the preferred head, emit it, and advance that run.  `fuel` is a bound on
the number of iterations; `runsTotal rs` suffices. -/
def kmergeGo (pref : TimeSeriesValue × Nat → TimeSeriesValue × Nat → Bool) :
    Nat → List SortedRun → List TimeSeriesValue
  | 0, _ => []
  | Nat.succ fuel, rs =>
    match headsFrom 0 rs with
    | [] => []
    | c :: cs =>
      (pickBest pref c cs).1 ::
        kmergeGo pref fuel
          (rs.set (pickBest pref c cs).2 ((rs.getD (pickBest pref c cs).2 []).drop 1))

/-- `kway_merge` parameterized by the heap order. -/
def kmerge (pref : TimeSeriesValue × Nat → TimeSeriesValue × Nat → Bool)
    (rs : List SortedRun) : List TimeSeriesValue :=
  kmergeGo pref (runsTotal rs) rs

/-- `kway_merge<AKU_CURSOR_DIR_FORWARD>`: each run is consumed
head-to-tail and the heap pops the least `(key, run_index)`.  The cursor
receives each popped element's payload (`point.value`). -/
def kway_merge_fwd (rs : List SortedRun) : List TimeSeriesValue :=
  kmerge heapItemLt rs

/-- `kway_merge<AKU_CURSOR_DIR_BACKWARD>`: `RunIter` hands out reverse
iterators, so each run is consumed tail-to-head, and the heap pops the
greatest `(key, run_index)`. -/
def kway_merge_bwd (rs : List SortedRun) : List TimeSeriesValue :=
  kmerge heapItemGt (rs.map List.reverse)

/-! ### Merge-engine lemmas -/

theorem pickBest_mem (pref : TimeSeriesValue × Nat → TimeSeriesValue × Nat → Bool) :
    ∀ (t : List (TimeSeriesValue × Nat)) (x : TimeSeriesValue × Nat),
      pickBest pref x t ∈ x :: t := by
  intro t
  induction t with
  | nil => intro x; simp [pickBest]
  | cons y t ih =>
    intro x
    simp only [pickBest]
    by_cases hp : pref y x = true
    · rw [if_pos hp]
      rcases List.mem_cons.mp (ih y) with h | h
      · rw [h]; simp
      · simp [List.mem_cons, h]
    · rw [if_neg hp]
      rcases List.mem_cons.mp (ih x) with h | h
      · rw [h]; simp
      · simp [List.mem_cons, h]

theorem pickBest_spec (pref : TimeSeriesValue × Nat → TimeSeriesValue × Nat → Bool)
    (Hirr : ∀ a, pref a a = false)
    (Hptrans : ∀ a b c, pref a b = true → pref b c = true → pref a c = true)
    (Hntrans : ∀ a b c, pref a b = false → pref b c = false → pref a c = false) :
    ∀ (t : List (TimeSeriesValue × Nat)) (x : TimeSeriesValue × Nat),
      ∀ c ∈ x :: t, pref c (pickBest pref x t) = false := by
  intro t
  induction t with
  | nil =>
    intro x c hc
    rcases List.mem_cons.mp hc with rfl | hc
    · simpa [pickBest] using Hirr c
    · cases hc
  | cons y t ih =>
    intro x c hc
    simp only [pickBest]
    by_cases hp : pref y x = true
    · rw [if_pos hp]
      rcases List.mem_cons.mp hc with rfl | hc
      · -- c = x; from pref y x and minimality of the pick over y :: t
        have hyb := ih y y (List.mem_cons_self y t)
        by_contra hxb
        have hxb' : pref c (pickBest pref y t) = true := by
          revert hxb; cases pref c (pickBest pref y t) <;> simp
        have := Hptrans y c (pickBest pref y t) hp hxb'
        rw [hyb] at this; cases this
      · exact ih y c (List.mem_cons.mpr (by simpa using hc))
    · have hp' : pref y x = false := by revert hp; cases pref y x <;> simp
      rw [if_neg hp]
      rcases List.mem_cons.mp hc with rfl | hc
      · exact ih c c (List.mem_cons_self c t)
      · rcases List.mem_cons.mp hc with rfl | hc
        · exact Hntrans c x (pickBest pref x t) hp' (ih x x (List.mem_cons_self x t))
        · exact ih x c (List.mem_cons_of_mem x hc)

theorem headsFrom_mem :
    ∀ (rs : List SortedRun) (k : Nat) (v : TimeSeriesValue) (i : Nat),
      (v, i) ∈ headsFrom k rs →
      ∃ j t, i = k + j ∧ j < rs.length ∧ rs.getD j [] = v :: t := by
  intro rs
  induction rs with
  | nil => intro k v i h; simp [headsFrom] at h
  | cons r rest ih =>
    intro k v i h
    rcases r with _ | ⟨w, ws⟩
    · simp only [headsFrom] at h
      obtain ⟨j, t, hj, hlen, hget⟩ := ih (k + 1) v i h
      exact ⟨j + 1, t, by omega, by simp; omega, by simpa using hget⟩
    · simp only [headsFrom, List.mem_cons] at h
      rcases h with h | h
      · injection h with h1 h2
        subst h1; subst h2
        exact ⟨0, ws, by omega, by simp, rfl⟩
      · obtain ⟨j, t, hj, hlen, hget⟩ := ih (k + 1) v i h
        exact ⟨j + 1, t, by omega, by simp; omega, by simpa using hget⟩

theorem headsFrom_nil :
    ∀ (rs : List SortedRun) (k : Nat), headsFrom k rs = [] → ∀ r ∈ rs, r = [] := by
  intro rs
  induction rs with
  | nil => intro k _ r hr; cases hr
  | cons r rest ih =>
    intro k h q hq
    rcases r with _ | ⟨w, ws⟩
    · rcases List.mem_cons.mp hq with rfl | hq
      · rfl
      · exact ih (k + 1) (by simpa [headsFrom] using h) q hq
    · simp [headsFrom] at h

theorem headsFrom_complete :
    ∀ (rs : List SortedRun) (k : Nat) (v : TimeSeriesValue) (t : List TimeSeriesValue),
      (v :: t) ∈ rs → ∃ i, (v, i) ∈ headsFrom k rs := by
  intro rs
  induction rs with
  | nil => intro k v t h; cases h
  | cons r rest ih =>
    intro k v t h
    rcases List.mem_cons.mp h with rfl | h
    · exact ⟨k, by simp [headsFrom]⟩
    · obtain ⟨i, hi⟩ := ih (k + 1) v t h
      rcases r with _ | ⟨w, ws⟩
      · exact ⟨i, by simpa [headsFrom] using hi⟩
      · exact ⟨i, by simp only [headsFrom, List.mem_cons]; right; exact hi⟩

theorem join_set_perm :
    ∀ (rs : List SortedRun) (j : Nat) (v : TimeSeriesValue) (t : List TimeSeriesValue),
      j < rs.length → rs.getD j [] = v :: t →
      rs.flatten.Perm (v :: (rs.set j t).flatten) := by
  intro rs
  induction rs with
  | nil => intro j v t h; simp at h
  | cons r rest ih =>
    intro j v t hlen hget
    match j with
    | 0 =>
      simp only [List.getD_cons_zero] at hget
      subst hget
      simp [List.set]
    | Nat.succ j =>
      simp only [List.getD_cons_succ] at hget
      have hlen' : j < rest.length := by simpa using hlen
      have hrec := ih j v t hlen' hget
      have h1 : (r ++ rest.flatten).Perm (r ++ (v :: (rest.set j t).flatten)) :=
        hrec.append_left r
      have h2 : (r ++ (v :: (rest.set j t).flatten)).Perm
          (v :: (r ++ (rest.set j t).flatten)) := List.perm_middle
      simpa using h1.trans h2

theorem runsTotal_set :
    ∀ (rs : List SortedRun) (j : Nat) (v : TimeSeriesValue) (t : List TimeSeriesValue),
      j < rs.length → rs.getD j [] = v :: t →
      runsTotal (rs.set j t) + 1 = runsTotal rs := by
  intro rs
  induction rs with
  | nil => intro j v t h; simp at h
  | cons r rest ih =>
    intro j v t hlen hget
    match j with
    | 0 =>
      simp only [List.getD_cons_zero] at hget
      subst hget
      simp only [List.set, runsTotal, List.map_cons, List.sum_cons, List.length_cons]
      omega
    | Nat.succ j =>
      simp only [List.getD_cons_succ] at hget
      have hlen' : j < rest.length := by simpa using hlen
      have hrec := ih j v t hlen' hget
      simp only [List.set, runsTotal, List.map_cons, List.sum_cons] at *
      omega

theorem runsTotal_zero_join :
    ∀ rs : List SortedRun, runsTotal rs = 0 → rs.flatten = [] := by
  intro rs
  induction rs with
  | nil => intro _; rfl
  | cons r rest ih =>
    intro h
    simp only [runsTotal, List.map_cons, List.sum_cons] at h
    have hr : r = [] := List.length_eq_zero.mp (by omega)
    have hrest := ih (by simp [runsTotal]; omega)
    simp [hr, hrest]

theorem kmergeGo_perm (pref : TimeSeriesValue × Nat → TimeSeriesValue × Nat → Bool) :
    ∀ (fuel : Nat) (rs : List SortedRun), runsTotal rs ≤ fuel →
      (kmergeGo pref fuel rs).Perm rs.flatten := by
  intro fuel
  induction fuel with
  | zero =>
    intro rs h
    have := runsTotal_zero_join rs (by omega)
    simp [kmergeGo, this]
  | succ fuel ih =>
    intro rs h
    cases hh : headsFrom 0 rs with
    | nil =>
      have hall := headsFrom_nil rs 0 hh
      have : rs.flatten = [] := List.flatten_eq_nil_iff.mpr hall
      simp [kmergeGo, hh, this]
    | cons c cs =>
      simp only [kmergeGo, hh]
      have hb : pickBest pref c cs ∈ headsFrom 0 rs := hh ▸ pickBest_mem pref cs c
      obtain ⟨j, t, hj, hlen, hget⟩ :=
        headsFrom_mem rs 0 (pickBest pref c cs).1 (pickBest pref c cs).2
          (by simpa using hb)
      have hj0 : (pickBest pref c cs).2 = j := by omega
      have hdrop : (rs.getD (pickBest pref c cs).2 []).drop 1 = t := by
        rw [hj0, hget]; rfl
      have htot := runsTotal_set rs j (pickBest pref c cs).1 t hlen hget
      rw [hdrop, hj0]
      have ihp := ih (rs.set j t) (by omega)
      exact (ihp.cons (pickBest pref c cs).1).trans
        (join_set_perm rs j (pickBest pref c cs).1 t hlen hget).symm

theorem heapItemLt_iff (a b : TimeSeriesValue × Nat) :
    heapItemLt a b = true ↔
      ((a.1.ts < b.1.ts ∨ (a.1.ts = b.1.ts ∧ a.1.id < b.1.id)) ∨
        (a.1.ts = b.1.ts ∧ a.1.id = b.1.id ∧ a.2 < b.2)) := by
  simp only [heapItemLt, Bool.or_eq_true, Bool.and_eq_true, Bool.not_eq_true', tsvLtB,
    decide_eq_true_eq, decide_eq_false_iff_not]
  omega

theorem heapItemLt_irrefl (a : TimeSeriesValue × Nat) : heapItemLt a a = false := by
  rw [Bool.eq_false_iff]
  intro h
  rw [heapItemLt_iff] at h
  omega

theorem heapItemLt_trans (a b c : TimeSeriesValue × Nat)
    (h1 : heapItemLt a b = true) (h2 : heapItemLt b c = true) : heapItemLt a c = true := by
  rw [heapItemLt_iff] at h1 h2 ⊢
  omega

theorem heapItemLt_ntrans (a b c : TimeSeriesValue × Nat)
    (h1 : heapItemLt a b = false) (h2 : heapItemLt b c = false) : heapItemLt a c = false := by
  simp only [Bool.eq_false_iff, ne_eq, heapItemLt_iff] at h1 h2 ⊢
  omega

theorem heapItemGt_irrefl (a : TimeSeriesValue × Nat) : heapItemGt a a = false :=
  heapItemLt_irrefl a

theorem heapItemGt_trans (a b c : TimeSeriesValue × Nat)
    (h1 : heapItemGt a b = true) (h2 : heapItemGt b c = true) : heapItemGt a c = true :=
  heapItemLt_trans c b a h2 h1

theorem heapItemGt_ntrans (a b c : TimeSeriesValue × Nat)
    (h1 : heapItemGt a b = false) (h2 : heapItemGt b c = false) : heapItemGt a c = false :=
  heapItemLt_ntrans c b a h2 h1

theorem heapItemLt_compat (x y : TimeSeriesValue × Nat)
    (h : heapItemLt y x = false) : keyLeB x.1 y.1 = true := by
  simp only [Bool.eq_false_iff, ne_eq, heapItemLt_iff] at h
  rw [keyLeB_iff]
  omega

theorem heapItemGt_compat (x y : TimeSeriesValue × Nat)
    (h : heapItemGt y x = false) : keyGeB x.1 y.1 = true := by
  simp only [heapItemGt, Bool.eq_false_iff, ne_eq, heapItemLt_iff] at h
  rw [keyGeB, keyLeB_iff]
  omega

theorem kmergeGo_sorted (pref : TimeSeriesValue × Nat → TimeSeriesValue × Nat → Bool)
    (le : TimeSeriesValue → TimeSeriesValue → Bool)
    (Hirr : ∀ a, pref a a = false)
    (Hptrans : ∀ a b c, pref a b = true → pref b c = true → pref a c = true)
    (Hntrans : ∀ a b c, pref a b = false → pref b c = false → pref a c = false)
    (Hcompat : ∀ x y : TimeSeriesValue × Nat, pref y x = false → le x.1 y.1 = true)
    (Hlrefl : ∀ a, le a a = true)
    (Hltrans : ∀ a b c, le a b = true → le b c = true → le a c = true) :
    ∀ (fuel : Nat) (rs : List SortedRun), runsTotal rs ≤ fuel →
      (∀ r ∈ rs, r.Pairwise (fun a b => le a b = true)) →
      (kmergeGo pref fuel rs).Pairwise (fun a b => le a b = true) := by
  intro fuel
  induction fuel with
  | zero => intro rs _ _; simp [kmergeGo]
  | succ fuel ih =>
    intro rs htot hsort
    cases hh : headsFrom 0 rs with
    | nil => simp [kmergeGo, hh]
    | cons c cs =>
      simp only [kmergeGo, hh]
      have hb : pickBest pref c cs ∈ headsFrom 0 rs := hh ▸ pickBest_mem pref cs c
      obtain ⟨j, t, hj, hlen, hget⟩ :=
        headsFrom_mem rs 0 (pickBest pref c cs).1 (pickBest pref c cs).2
          (by simpa using hb)
      have hj0 : (pickBest pref c cs).2 = j := by omega
      have hdrop : (rs.getD (pickBest pref c cs).2 []).drop 1 = t := by
        rw [hj0, hget]; rfl
      have htot' := runsTotal_set rs j (pickBest pref c cs).1 t hlen hget
      rw [hdrop, hj0]
      -- the run (v :: t) is a member of rs
      have hvt_mem : ((pickBest pref c cs).1 :: t) ∈ rs := by
        have := List.getD_eq_getElem rs [] hlen
        rw [hget] at this
        exact this ▸ List.getElem_mem hlen
      -- all runs of the advanced run set are sorted
      have hsort' : ∀ r ∈ rs.set j t, r.Pairwise (fun a b => le a b = true) := by
        intro r hr
        rcases List.mem_or_eq_of_mem_set hr with hr | rfl
        · exact hsort r hr
        · exact (hsort _ hvt_mem).of_cons
      refine List.pairwise_cons.mpr ⟨?_, ih (rs.set j t) (by omega) hsort'⟩
      intro u hu
      -- u is an element of some run of the advanced run set
      have hu' : u ∈ (rs.set j t).flatten :=
        (kmergeGo_perm pref fuel (rs.set j t) (by omega)).mem_iff.mp hu
      obtain ⟨r, hr, hur⟩ := List.mem_flatten.mp hu'
      rcases List.mem_or_eq_of_mem_set hr with hr | rfl
      · -- u sits in an untouched run whose head is still in the heap
        rcases r with _ | ⟨w, ws⟩
        · cases hur
        · obtain ⟨i, hwi⟩ := headsFrom_complete rs 0 w ws hr
          have hnp : pref (w, i) (pickBest pref c cs) = false := by
            have := pickBest_spec pref Hirr Hptrans Hntrans cs c (w, i) (hh ▸ hwi)
            exact this
          have h1 : le (pickBest pref c cs).1 w = true := Hcompat _ _ hnp
          rcases List.mem_cons.mp hur with rfl | hur
          · exact h1
          · exact Hltrans _ _ _ h1 (List.rel_of_pairwise_cons (hsort _ hr) hur)
      · -- u sits in the popped run's tail
        exact List.rel_of_pairwise_cons (hsort _ hvt_mem) hur

theorem flatten_map_reverse_perm :
    ∀ rs : List SortedRun, (rs.map List.reverse).flatten.Perm rs.flatten := by
  intro rs
  induction rs with
  | nil => simp
  | cons r rest ih => simpa using (r.reverse_perm).append ih

theorem kway_merge_fwd_perm (rs : List SortedRun) :
    (kway_merge_fwd rs).Perm rs.flatten :=
  kmergeGo_perm heapItemLt (runsTotal rs) rs le_rfl

theorem kway_merge_bwd_perm (rs : List SortedRun) :
    (kway_merge_bwd rs).Perm rs.flatten :=
  (kmergeGo_perm heapItemGt (runsTotal (rs.map List.reverse)) (rs.map List.reverse)
    le_rfl).trans (flatten_map_reverse_perm rs)

theorem kway_merge_fwd_sorted (rs : List SortedRun) (h : ∀ r ∈ rs, RunSorted r) :
    (kway_merge_fwd rs).Pairwise (fun a b => keyLeB a b = true) :=
  kmergeGo_sorted heapItemLt keyLeB heapItemLt_irrefl heapItemLt_trans heapItemLt_ntrans
    heapItemLt_compat keyLeB_refl (fun _ _ _ h1 h2 => keyLeB_trans h1 h2)
    (runsTotal rs) rs le_rfl h

theorem kway_merge_bwd_sorted (rs : List SortedRun) (h : ∀ r ∈ rs, RunSorted r) :
    (kway_merge_bwd rs).Pairwise (fun a b => keyGeB a b = true) := by
  refine kmergeGo_sorted heapItemGt keyGeB heapItemGt_irrefl heapItemGt_trans heapItemGt_ntrans
    heapItemGt_compat (fun a => keyLeB_refl a) (fun _ _ _ h1 h2 => keyLeB_trans h2 h1)
    (runsTotal (rs.map List.reverse)) (rs.map List.reverse) le_rfl ?_
  intro r hr
  obtain ⟨q, hq, rfl⟩ := List.mem_map.mp hr
  exact List.pairwise_reverse.mpr (by simpa [flip] using h q hq)

/-! ### The Sequencer (sequencer.cpp)

State of a `Sequencer` instance.  `progress_locked` models the
`progress_flag_` mutex: in this sequential embedding it is `true`
exactly while a lock token that owns the mutex (returned by `add` or
`close`) is outstanding, i.e. while a checkpoint is staged. -/

structure SeqState where
  window_size : Nat
  top_timestamp : Nat
  checkpoint : Nat
  runs : List SortedRun
  ready : List SortedRun
  progress_locked : Bool
deriving Repr, DecidableEq

/-- A fresh sequencer (`Sequencer::Sequencer`); the constructor requires
`window_size > 0` (it throws otherwise). -/
def initSeq (window : Nat) : SeqState :=
  { window_size := window
    top_timestamp := 0
    checkpoint := 0
    runs := []
    ready := []
    progress_locked := false }

/-- Status codes returned by the sequencer operations. -/
inductive Status where
  | SUCCESS
  | LATE_WRITE
  | BUSY
deriving Repr, DecidableEq

/-- The per-run loop body of `Sequencer::make_checkpoint_`: binary-search
each run for the first element with key `≥ (old_top, AKU_LIMITS_MAX_ID)`
(`q e` holds for the elements strictly below that probe, so
`lower_bound` sits between `takeWhile q` and `dropWhile q`); if the
position is the run's beginning keep the whole run active, if it is the
end move the whole run to Ready, otherwise split.  Returns
`(ready runs, new active runs)`, each in original run order. -/
def checkpointSplit (q : TimeSeriesValue → Bool) :
    List SortedRun → List SortedRun × List SortedRun
  | [] => ([], [])
  | r :: rest =>
    let z := checkpointSplit q rest
    if (r.takeWhile q).isEmpty then (z.1, r :: z.2)
    else if (r.dropWhile q).isEmpty then (r :: z.1, z.2)
    else ((r.takeWhile q) :: z.1, (r.dropWhile q) :: z.2)

/-- `Sequencer::make_checkpoint_`: try to acquire the progress lock (on
failure return with the token not owning it); capture `old_top` from the
previous checkpoint id, store the new id, require Ready to be empty
(`throw` — modelled as `none` — otherwise), and split every active run
at the first element with key `≥ (old_top, AKU_LIMITS_MAX_ID)`.  The
`Bool` of the result is whether the lock was acquired. -/
def make_checkpoint (new_checkpoint : Nat) (st : SeqState) : Option (SeqState × Bool) :=
  if st.progress_locked then some (st, false)
  else if !st.ready.isEmpty then none
  else
    let old_top := st.checkpoint * st.window_size
    let probe : TimeSeriesValue := ⟨old_top, AKU_LIMITS_MAX_ID, 0⟩
    let z := checkpointSplit (fun e => tsvLtB e probe) st.runs
    some ({ st with
            checkpoint := new_checkpoint
            ready := z.1
            runs := z.2
            progress_locked := true }, true)

/-- `Sequencer::get_checkpoint_`: checkpoint id `= ⌊ts / window_size⌋`.
The function's return type is `uint32_t`, so the 64-bit quotient is
narrowed mod `2^32`; `checkpoint_` itself is a `uint32_t` field, so
every stored id is such a narrowed value. -/
def get_checkpoint (st : SeqState) (ts : Nat) : Nat :=
  ts / st.window_size % 4294967296

/-- `Sequencer::check_timestamp_`: validate `ts` against the window and
trigger a checkpoint when a new window is reached (the new id being the
`uint32_t`-narrowed quotient `get_checkpoint`).  Returns the error code,
the updated state and whether the lock token now owns the progress
lock. -/
def check_timestamp (ts : Nat) (st : SeqState) : Option (Status × SeqState × Bool) :=
  if ts < st.top_timestamp then
    let delta := st.top_timestamp - ts
    some (if delta > st.window_size then Status.LATE_WRITE else Status.SUCCESS, st, false)
  else
    let point := get_checkpoint st ts
    if point > st.checkpoint then
      match make_checkpoint point st with
      | none => none
      | some (st1, owns) =>
        some (if owns then Status.SUCCESS else Status.BUSY,
              { st1 with top_timestamp := ts }, owns)
    else
      some (Status.SUCCESS, { st with top_timestamp := ts }, false)

/-- The insertion step of `Sequencer::add`:
`lower_bound(runs_.begin(), runs_.end(), key_, top_element_more)` finds
the first run whose last element is not greater than the incoming value
(`top_element_more(r, key_) ⇔ key_.back() < r.back()`), i.e. the
boundary between `takeWhile` and `dropWhile` below; if there is no such
run a new single-element run is appended to the run set, otherwise the
value is appended to the found run. -/
def insert_value (runs : List SortedRun) (v : TimeSeriesValue) : List SortedRun :=
  match runs.dropWhile (fun r => tsvLtB v (runLast r)) with
  | [] => runs ++ [[v]]
  | r :: rest => runs.takeWhile (fun q => tsvLtB v (runLast q)) ++ (r ++ [v]) :: rest

/-- `Sequencer::add`: check the timestamp (possibly triggering a
checkpoint) and, on success, insert the value into the run set.  Returns
the status, whether the returned lock token owns the progress lock, and
the new state. -/
def Sequencer.add (st : SeqState) (v : TimeSeriesValue) :
    Option (Status × Bool × SeqState) :=
  match check_timestamp v.ts st with
  | none => none
  | some (status, st1, owns) =>
    if status = Status.SUCCESS then
      some (Status.SUCCESS, owns, { st1 with runs := insert_value st1.runs v })
    else some (status, owns, st1)

/-- `Sequencer::close`: try to acquire the progress lock (returning a
non-owning token on failure); require Ready empty (`throw` otherwise);
move every active run into Ready and clear the active run set.  The
`Bool` of the result is whether the returned token owns the lock. -/
def Sequencer.close (st : SeqState) : Option (Bool × SeqState) :=
  if st.progress_locked then some (false, st)
  else if !st.ready.isEmpty then none
  else some (true, { st with ready := st.runs, runs := [], progress_locked := true })

/-- `Sequencer::merge` called with the outstanding lock token, followed by
the destruction of the token (which releases the progress lock).  If the
token does not own the lock the cursor receives `AKU_EBUSY` and nothing
changes; if Ready is empty the cursor receives `AKU_ENO_DATA`; otherwise
the Ready runs are merged forward into the cursor and Ready is cleared.
Returns the new state and the list of emitted values (the cursor
receives each value's payload). -/
def mergeStep (st : SeqState) : SeqState × List TimeSeriesValue :=
  if st.progress_locked then
    if st.ready.isEmpty then ({ st with progress_locked := false }, [])
    else ({ st with ready := [], progress_locked := false }, kway_merge_fwd st.ready)
  else (st, [])

/-- Cursor direction (`AKU_CURSOR_DIR_FORWARD` / `AKU_CURSOR_DIR_BACKWARD`). -/
inductive Dir where
  | forward
  | backward
deriving Repr, DecidableEq

/-- A search query; `param_pred p = true` models
`param_pred(p) == SearchQuery::MATCH`. -/
structure SearchQuery where
  lowerbound : Nat
  upperbound : Nat
  param_pred : Nat → Bool
  direction : Dir

/-- `SearchPredicate::operator()`: a value matches iff
`lowerbound < ts` and `upperbound > ts` (strict on both ends) and the
parameter predicate returns MATCH. -/
def searchPredB (q : SearchQuery) (v : TimeSeriesValue) : Bool :=
  decide (q.lowerbound < v.ts) && decide (q.upperbound > v.ts) && q.param_pred v.id

/-- `Sequencer::search`: filter every active run with the predicate
(`Sequencer::filter` pushes one result run per active run, preserving
order), then k-way merge the filtered runs in the requested direction.
The source holds the progress mutex for the duration and asserts Ready
is empty; the assertion does not affect the produced sequence. -/
def Sequencer.search (st : SeqState) (q : SearchQuery) : List TimeSeriesValue :=
  let filtered := st.runs.map (fun r => r.filter (searchPredB q))
  match q.direction with
  | Dir.forward => kway_merge_fwd filtered
  | Dir.backward => kway_merge_bwd filtered

/-! ### Driver traces

A sequential driver issues operations against the sequencer.  `mergeOp`
calls `merge` with the currently outstanding lock token (the token owns
the progress lock iff `progress_locked`) and then destroys the token.
`step` returns the new state, the values admitted by the operation (the
value of an `add` that returned SUCCESS) and the values emitted to a
cursor by the operation. -/

inductive Op where
  | addOp (v : TimeSeriesValue)
  | mergeOp
  | closeOp

def step (st : SeqState) : Op → Option (SeqState × List TimeSeriesValue × List TimeSeriesValue)
  | Op.addOp v =>
    match Sequencer.add st v with
    | none => none
    | some (status, _owns, st1) =>
      some (st1, if status = Status.SUCCESS then [v] else [], [])
  | Op.mergeOp =>
    some ((mergeStep st).1, [], (mergeStep st).2)
  | Op.closeOp =>
    match Sequencer.close st with
    | none => none
    | some (_owns, st1) => some (st1, [], [])

/-- Run a list of driver operations, accumulating admitted and emitted
values. -/
def runTrace (st : SeqState) :
    List Op → Option (SeqState × List TimeSeriesValue × List TimeSeriesValue)
  | [] => some (st, [], [])
  | op :: rest =>
    match step st op with
    | none => none
    | some (st1, a1, e1) =>
      match runTrace st1 rest with
      | none => none
      | some (st2, a2, e2) => some (st2, a1 ++ a2, e1 ++ e2)

/-! ### Sequencer lemmas -/

theorem runLast_cons_cons (x y : TimeSeriesValue) (t : List TimeSeriesValue) :
    runLast (x :: y :: t) = runLast (y :: t) := by
  simp [runLast, List.getLastD_cons]

theorem sorted_all_le_last :
    ∀ (r : SortedRun), RunSorted r → ∀ a ∈ r, keyLeB a (runLast r) = true := by
  intro r
  induction r with
  | nil => intro _ a ha; cases ha
  | cons x t ih =>
    intro hs a ha
    rcases t with _ | ⟨y, t⟩
    · rcases List.mem_singleton.mp ha with rfl
      exact keyLeB_refl a
    · rw [runLast_cons_cons]
      rcases List.mem_cons.mp ha with rfl | ha
      · have h1 : keyLeB a y = true := List.rel_of_pairwise_cons hs (List.mem_cons_self y t)
        have h2 : keyLeB y (runLast (y :: t)) = true :=
          ih ((List.pairwise_cons.mp hs).2) y (List.mem_cons_self y t)
        exact keyLeB_trans h1 h2
      · exact ih ((List.pairwise_cons.mp hs).2) a ha

theorem dropWhile_head_false {α : Type} (p : α → Bool) :
    ∀ (l : List α) (x : α) (xs : List α), l.dropWhile p = x :: xs → p x = false := by
  intro l
  induction l with
  | nil => intro x xs h; cases h
  | cons y t ih =>
    intro x xs h
    by_cases hy : p y = true
    · rw [List.dropWhile_cons_of_pos hy] at h
      exact ih x xs h
    · rw [List.dropWhile_cons_of_neg hy] at h
      injection h with h1 _
      subst h1
      exact Bool.eq_false_iff.mpr hy

/-- On a sorted run, splitting at a position given by a downward-closed
predicate coincides with filtering by the predicate. -/
theorem sorted_takeWhile_eq_filter (p : TimeSeriesValue → Bool)
    (hdc : ∀ a b, keyLeB a b = true → p b = true → p a = true) :
    ∀ (r : SortedRun), RunSorted r →
      r.takeWhile p = r.filter p ∧
      r.dropWhile p = r.filter (fun e => !p e) := by
  intro r
  induction r with
  | nil => intro _; simp
  | cons x t ih =>
    intro hs
    obtain ⟨hx, ht⟩ := List.pairwise_cons.mp hs
    by_cases hp : p x = true
    · rw [List.takeWhile_cons_of_pos hp, List.dropWhile_cons_of_pos hp,
        List.filter_cons_of_pos hp, List.filter_cons_of_neg (by simp [hp])]
      exact ⟨by rw [(ih ht).1], by rw [(ih ht).2]⟩
    · have hp' : p x = false := Bool.eq_false_iff.mpr hp
      have hall : ∀ b ∈ t, p b = false := by
        intro b hb
        by_contra hpb
        have hpb' : p b = true := by revert hpb; cases p b <;> simp
        exact (Bool.eq_false_iff.mp hp') (hdc x b (hx b hb) hpb')
      rw [List.takeWhile_cons_of_neg hp, List.dropWhile_cons_of_neg hp,
        List.filter_cons_of_neg (by simp [hp']), List.filter_cons_of_pos (by simp [hp'])]
      constructor
      · have hnil : t.filter p = [] := by
          rw [List.eq_nil_iff_forall_not_mem]
          intro a ha
          have hma := List.mem_filter.mp ha
          rw [hall a hma.1] at hma
          cases hma.2
        exact hnil.symm
      · have hself : t.filter (fun e => !p e) = t := by
          rw [List.filter_eq_self]
          intro a ha
          simp [hall a ha]
        rw [hself]

theorem checkpointSplit_mass (q : TimeSeriesValue → Bool) :
    ∀ rs : List SortedRun,
      (((checkpointSplit q rs).1.flatten : Multiset TimeSeriesValue) +
        ((checkpointSplit q rs).2.flatten : Multiset TimeSeriesValue)) =
      (rs.flatten : Multiset TimeSeriesValue) := by
  intro rs
  induction rs with
  | nil => simp [checkpointSplit]
  | cons r rest ih =>
    simp only [checkpointSplit]
    by_cases h1 : (r.takeWhile q).isEmpty = true
    · rw [if_pos h1]
      simp only [List.flatten_cons, ← Multiset.coe_add]
      rw [← ih]
      ac_rfl
    · rw [if_neg h1]
      by_cases h2 : (r.dropWhile q).isEmpty = true
      · rw [if_pos h2]
        simp only [List.flatten_cons, ← Multiset.coe_add]
        rw [← ih]
        ac_rfl
      · rw [if_neg h2]
        simp only [List.flatten_cons, ← Multiset.coe_add]
        rw [← ih]
        have hr : (↑(r.takeWhile q) : Multiset TimeSeriesValue) + ↑(r.dropWhile q) = ↑r := by
          rw [Multiset.coe_add, List.takeWhile_append_dropWhile]
        rw [← hr]
        ac_rfl

theorem checkpointSplit_ready_pred (q : TimeSeriesValue → Bool) :
    ∀ rs : List SortedRun, ∀ r ∈ (checkpointSplit q rs).1, ∀ e ∈ r, q e = true := by
  intro rs
  induction rs with
  | nil => intro r hr; cases hr
  | cons r0 rest ih =>
    intro r hr e he
    simp only [checkpointSplit] at hr
    by_cases h1 : (r0.takeWhile q).isEmpty = true
    · rw [if_pos h1] at hr
      exact ih r hr e he
    · rw [if_neg h1] at hr
      by_cases h2 : (r0.dropWhile q).isEmpty = true
      · rw [if_pos h2] at hr
        rcases List.mem_cons.mp hr with rfl | hr
        · have : ∀ x ∈ r, q x = true := List.dropWhile_eq_nil_iff.mp (List.isEmpty_iff.mp h2)
          exact this e he
        · exact ih r hr e he
      · rw [if_neg h2] at hr
        rcases List.mem_cons.mp hr with rfl | hr
        · exact List.mem_takeWhile_imp he
        · exact ih r hr e he

theorem checkpointSplit_sorted (q : TimeSeriesValue → Bool) :
    ∀ rs : List SortedRun, (∀ r ∈ rs, RunSorted r) →
      (∀ r ∈ (checkpointSplit q rs).1, RunSorted r) ∧
      (∀ r ∈ (checkpointSplit q rs).2, RunSorted r) := by
  intro rs
  induction rs with
  | nil => intro _; exact ⟨fun r hr => absurd hr (by simp [checkpointSplit]), fun r hr => absurd hr (by simp [checkpointSplit])⟩
  | cons r0 rest ih =>
    intro hs
    have h0 : RunSorted r0 := hs r0 (List.mem_cons_self r0 rest)
    have hrest := ih (fun r hr => hs r (List.mem_cons_of_mem r0 hr))
    simp only [checkpointSplit]
    by_cases h1 : (r0.takeWhile q).isEmpty = true
    · rw [if_pos h1]
      refine ⟨hrest.1, ?_⟩
      intro r hr
      rcases List.mem_cons.mp hr with rfl | hr
      · exact h0
      · exact hrest.2 r hr
    · rw [if_neg h1]
      by_cases h2 : (r0.dropWhile q).isEmpty = true
      · rw [if_pos h2]
        refine ⟨?_, hrest.2⟩
        intro r hr
        rcases List.mem_cons.mp hr with rfl | hr
        · exact h0
        · exact hrest.1 r hr
      · rw [if_neg h2]
        constructor
        · intro r hr
          rcases List.mem_cons.mp hr with rfl | hr
          · exact List.Pairwise.sublist (List.takeWhile_sublist q) h0
          · exact hrest.1 r hr
        · intro r hr
          rcases List.mem_cons.mp hr with rfl | hr
          · exact List.Pairwise.sublist (List.dropWhile_sublist q) h0
          · exact hrest.2 r hr

/-- On sorted, non-empty runs the three-way split of `make_checkpoint_`
is the per-run partition by the probe predicate, dropping the empty
pieces. -/
theorem checkpointSplit_eq_filter (q : TimeSeriesValue → Bool)
    (hdc : ∀ a b, keyLeB a b = true → q b = true → q a = true) :
    ∀ rs : List SortedRun, (∀ r ∈ rs, RunSorted r ∧ r ≠ []) →
      checkpointSplit q rs =
        ((rs.map (fun r => r.filter q)).filter (fun r => !r.isEmpty),
         (rs.map (fun r => r.filter (fun e => !q e))).filter (fun r => !r.isEmpty)) := by
  intro rs
  induction rs with
  | nil => intro _; simp [checkpointSplit]
  | cons r0 rest ih =>
    intro hs
    obtain ⟨h0, h0ne⟩ := hs r0 (List.mem_cons_self r0 rest)
    have hrest := ih (fun r hr => hs r (List.mem_cons_of_mem r0 hr))
    obtain ⟨htw, hdw⟩ := sorted_takeWhile_eq_filter q hdc r0 h0
    have h0e : r0.isEmpty = false := by
      cases h : r0.isEmpty
      · rfl
      · exact absurd (List.isEmpty_iff.mp h) h0ne
    simp only [checkpointSplit, List.map_cons]
    by_cases h1 : (r0.takeWhile q).isEmpty = true
    · rw [if_pos h1]
      have htw0 : r0.takeWhile q = [] := List.isEmpty_iff.mp h1
      have hd : r0.dropWhile q = r0 := by
        have happ := List.takeWhile_append_dropWhile q r0
        rw [htw0] at happ
        simpa using happ
      have hfe : (r0.filter q).isEmpty = true := by
        rw [← htw, htw0]; rfl
      have hne2 : (r0.filter (fun e => !q e)).isEmpty = false := by
        rw [← hdw, hd]; exact h0e
      rw [List.filter_cons_of_neg (by simp [hfe]), List.filter_cons_of_pos (by simp [hne2])]
      have hfd : r0.filter (fun e => !q e) = r0 := by rw [← hdw, hd]
      rw [hfd, hrest]
    · rw [if_neg h1]
      have hfne : (r0.filter q).isEmpty = false := by
        rw [← htw]
        cases h : (r0.takeWhile q).isEmpty
        · rfl
        · exact absurd h h1
      by_cases h2 : (r0.dropWhile q).isEmpty = true
      · rw [if_pos h2]
        have hd0 : r0.dropWhile q = [] := List.isEmpty_iff.mp h2
        have htd : r0.takeWhile q = r0 := by
          have happ := List.takeWhile_append_dropWhile q r0
          rw [hd0] at happ
          simpa using happ
        have hfe2 : (r0.filter (fun e => !q e)).isEmpty = true := by
          rw [← hdw, hd0]; rfl
        rw [List.filter_cons_of_pos (by simp [hfne]), List.filter_cons_of_neg (by simp [hfe2])]
        have hfq : r0.filter q = r0 := by rw [← htw, htd]
        rw [hfq, hrest]
      · rw [if_neg h2]
        have hfne2 : (r0.filter (fun e => !q e)).isEmpty = false := by
          rw [← hdw]
          cases h : (r0.dropWhile q).isEmpty
          · rfl
          · exact absurd h h2
        rw [List.filter_cons_of_pos (by simp [hfne]), List.filter_cons_of_pos (by simp [hfne2])]
        rw [hrest, htw, hdw]

theorem coe_append_singleton (l : List TimeSeriesValue) (v : TimeSeriesValue) :
    (↑(l ++ [v]) : Multiset TimeSeriesValue) = v ::ₘ ↑l := by
  rw [Multiset.cons_coe]
  exact Multiset.coe_eq_coe.mpr (List.perm_append_singleton v l)

theorem insert_value_mass (runs : List SortedRun) (v : TimeSeriesValue) :
    ((insert_value runs v).flatten : Multiset TimeSeriesValue) =
      v ::ₘ (runs.flatten : Multiset TimeSeriesValue) := by
  unfold insert_value
  cases hdw : runs.dropWhile (fun r => tsvLtB v (runLast r)) with
  | nil =>
    simp only [List.flatten_append, List.flatten_cons, List.flatten_nil, List.append_nil,
      ← Multiset.coe_add]
    rw [← Multiset.singleton_add, Multiset.coe_singleton]
    exact add_comm _ _
  | cons r rest =>
    have hsplit := List.takeWhile_append_dropWhile (fun r => tsvLtB v (runLast r)) runs
    rw [hdw] at hsplit
    conv_rhs => rw [← hsplit]
    simp only [List.flatten_append, List.flatten_cons, ← Multiset.coe_add]
    rw [← Multiset.singleton_add]
    have hsv : (↑[v] : Multiset TimeSeriesValue) = {v} := Multiset.coe_singleton v
    rw [hsv]
    ac_rfl

theorem insert_value_sorted (runs : List SortedRun) (v : TimeSeriesValue)
    (hs : ∀ r ∈ runs, RunSorted r) :
    ∀ r ∈ insert_value runs v, RunSorted r := by
  unfold insert_value
  cases hdw : runs.dropWhile (fun r => tsvLtB v (runLast r)) with
  | nil =>
    intro r hr
    rcases List.mem_append.mp hr with hr | hr
    · exact hs r hr
    · rcases List.mem_singleton.mp hr with rfl
      exact List.pairwise_singleton _ v
  | cons r0 rest =>
    intro r hr
    have hsplit := List.takeWhile_append_dropWhile (fun r => tsvLtB v (runLast r)) runs
    rw [hdw] at hsplit
    rcases List.mem_append.mp hr with hr | hr
    · exact hs r ((List.takeWhile_sublist _).subset hr)
    · rcases List.mem_cons.mp hr with rfl | hr
      · -- the appended run: r0 is sorted and its last key is ≤ v
        have hr0mem : r0 ∈ runs := by
          rw [← hsplit]
          exact List.mem_append.mpr (Or.inr (List.mem_cons_self r0 rest))
        have hr0s : RunSorted r0 := hs r0 hr0mem
        have hlast : keyLeB (runLast r0) v = true := by
          have := dropWhile_head_false (fun r => tsvLtB v (runLast r)) runs r0 rest hdw
          simpa [not_tsvLtB_iff_keyLeB] using this
        rw [RunSorted, List.pairwise_append]
        refine ⟨hr0s, List.pairwise_singleton _ v, ?_⟩
        intro a ha b hb
        rcases List.mem_singleton.mp hb with rfl
        exact keyLeB_trans (sorted_all_le_last r0 hr0s a ha) hlast
      · have : r ∈ runs := by
          rw [← hsplit]
          exact List.mem_append.mpr (Or.inr (List.mem_cons_of_mem r0 hr))
        exact hs r this

/-! ### Case equations for the sequencer operations -/

/-- The checkpoint probe for a state: `TimeSeriesValue(old_top, AKU_LIMITS_MAX_ID, 0)`
with `old_top = checkpoint_ * window_size`. -/
def cpProbe (st : SeqState) : TimeSeriesValue :=
  ⟨st.checkpoint * st.window_size, AKU_LIMITS_MAX_ID, 0⟩

theorem add_late (st : SeqState) (v : TimeSeriesValue)
    (h1 : v.ts < st.top_timestamp) (h2 : st.top_timestamp - v.ts > st.window_size) :
    Sequencer.add st v = some (Status.LATE_WRITE, false, st) := by
  simp only [Sequencer.add, check_timestamp, if_pos h1, if_pos h2]
  simp

theorem add_accept_old (st : SeqState) (v : TimeSeriesValue)
    (h1 : v.ts < st.top_timestamp) (h2 : ¬ st.top_timestamp - v.ts > st.window_size) :
    Sequencer.add st v =
      some (Status.SUCCESS, false, { st with runs := insert_value st.runs v }) := by
  simp only [Sequencer.add, check_timestamp, if_pos h1, if_neg h2]
  simp

theorem add_nocp (st : SeqState) (v : TimeSeriesValue)
    (h1 : ¬ v.ts < st.top_timestamp) (h2 : ¬ get_checkpoint st v.ts > st.checkpoint) :
    Sequencer.add st v =
      some (Status.SUCCESS, false,
        { st with top_timestamp := v.ts,
                  runs := insert_value st.runs v }) := by
  simp only [Sequencer.add, check_timestamp, if_neg h1, if_neg h2]
  simp

theorem add_busy (st : SeqState) (v : TimeSeriesValue)
    (h1 : ¬ v.ts < st.top_timestamp) (h2 : get_checkpoint st v.ts > st.checkpoint)
    (h3 : st.progress_locked = true) :
    Sequencer.add st v =
      some (Status.BUSY, false, { st with top_timestamp := v.ts }) := by
  simp only [Sequencer.add, check_timestamp, if_neg h1, if_pos h2, make_checkpoint,
    if_pos h3]
  simp

theorem add_none (st : SeqState) (v : TimeSeriesValue)
    (h1 : ¬ v.ts < st.top_timestamp) (h2 : get_checkpoint st v.ts > st.checkpoint)
    (h3 : st.progress_locked = false) (h4 : st.ready ≠ []) :
    Sequencer.add st v = none := by
  have h4' : st.ready.isEmpty = false := by
    cases h : st.ready.isEmpty
    · rfl
    · exact absurd (List.isEmpty_iff.mp h) h4
  simp only [Sequencer.add, check_timestamp, if_neg h1, if_pos h2, make_checkpoint, h3,
    if_neg (by simp : ¬ (false : Bool) = true), h4']
  simp

theorem add_checkpoint (st : SeqState) (v : TimeSeriesValue)
    (h1 : ¬ v.ts < st.top_timestamp) (h2 : get_checkpoint st v.ts > st.checkpoint)
    (h3 : st.progress_locked = false) (h4 : st.ready = []) :
    Sequencer.add st v =
      some (Status.SUCCESS, true,
        { window_size := st.window_size
          top_timestamp := v.ts
          checkpoint := get_checkpoint st v.ts
          runs := insert_value
            (checkpointSplit (fun e => tsvLtB e (cpProbe st)) st.runs).2 v
          ready := (checkpointSplit (fun e => tsvLtB e (cpProbe st)) st.runs).1
          progress_locked := true }) := by
  have h4' : st.ready.isEmpty = true := by rw [h4]; rfl
  simp only [Sequencer.add, check_timestamp, if_neg h1, if_pos h2, make_checkpoint, h3,
    if_neg (by simp : ¬ (false : Bool) = true), h4', cpProbe]
  simp

theorem close_locked (st : SeqState) (h : st.progress_locked = true) :
    Sequencer.close st = some (false, st) := by
  simp [Sequencer.close, h]

theorem close_ok (st : SeqState) (h1 : st.progress_locked = false) (h2 : st.ready = []) :
    Sequencer.close st =
      some (true, { st with ready := st.runs, runs := [], progress_locked := true }) := by
  simp [Sequencer.close, h1, h2]

theorem close_none (st : SeqState) (h1 : st.progress_locked = false) (h2 : st.ready ≠ []) :
    Sequencer.close st = none := by
  have h2' : st.ready.isEmpty = false := by
    cases h : st.ready.isEmpty
    · rfl
    · exact absurd (List.isEmpty_iff.mp h) h2
  simp [Sequencer.close, h1, h2']

/-! ### Conservation of values along driver traces -/

/-- The total content of a sequencer state: every value held in an
active or Ready run, with multiplicity. -/
def mass (st : SeqState) : Multiset TimeSeriesValue :=
  (st.runs.flatten : Multiset TimeSeriesValue) + (st.ready.flatten : Multiset TimeSeriesValue)

theorem step_mass (st : SeqState) (op : Op) (st' : SeqState)
    (a e : List TimeSeriesValue) (h : step st op = some (st', a, e)) :
    (a : Multiset TimeSeriesValue) + mass st = (e : Multiset TimeSeriesValue) + mass st' := by
  cases op with
  | addOp v =>
    by_cases h1 : v.ts < st.top_timestamp
    · by_cases h2 : st.top_timestamp - v.ts > st.window_size
      · rw [step, add_late st v h1 h2] at h
        rw [Option.some.injEq, Prod.mk.injEq, Prod.mk.injEq] at h
        obtain ⟨rfl, rfl, rfl⟩ := h
        simp
      · rw [step, add_accept_old st v h1 h2] at h
        rw [Option.some.injEq, Prod.mk.injEq, Prod.mk.injEq] at h
        obtain ⟨rfl, rfl, rfl⟩ := h
        simp only [mass, insert_value_mass]
        simp only [← Multiset.singleton_add, reduceIte, Multiset.coe_singleton]
        ac_rfl
    · by_cases h2 : get_checkpoint st v.ts > st.checkpoint
      · cases h3 : st.progress_locked
        · cases h4 : st.ready with
          | nil =>
            rw [step, add_checkpoint st v h1 h2 h3 h4] at h
            rw [Option.some.injEq, Prod.mk.injEq, Prod.mk.injEq] at h
            obtain ⟨rfl, rfl, rfl⟩ := h
            simp only [mass, insert_value_mass, h4, List.flatten_nil, Multiset.coe_nil,
              add_zero]
            have hcs := checkpointSplit_mass (fun e => tsvLtB e (cpProbe st)) st.runs
            rw [← hcs]
            simp only [← Multiset.singleton_add, reduceIte, Multiset.coe_singleton]
            ac_rfl
          | cons r rest =>
            rw [step, add_none st v h1 h2 h3 (by rw [h4]; simp)] at h
            cases h
        · rw [step, add_busy st v h1 h2 h3] at h
          rw [Option.some.injEq, Prod.mk.injEq, Prod.mk.injEq] at h
          obtain ⟨rfl, rfl, rfl⟩ := h
          simp [mass]
      · rw [step, add_nocp st v h1 h2] at h
        rw [Option.some.injEq, Prod.mk.injEq, Prod.mk.injEq] at h
        obtain ⟨rfl, rfl, rfl⟩ := h
        simp only [mass, insert_value_mass]
        simp only [← Multiset.singleton_add, reduceIte, Multiset.coe_singleton]
        ac_rfl
  | mergeOp =>
    rw [step, mergeStep] at h
    cases h3 : st.progress_locked
    · rw [h3] at h
      simp only [Bool.false_eq_true, if_false] at h
      rw [Option.some.injEq, Prod.mk.injEq, Prod.mk.injEq] at h
      obtain ⟨rfl, rfl, rfl⟩ := h
      simp
    · rw [h3] at h
      simp only [if_true] at h
      by_cases h4 : st.ready.isEmpty = true
      · rw [if_pos h4] at h
        rw [Option.some.injEq, Prod.mk.injEq, Prod.mk.injEq] at h
        obtain ⟨rfl, rfl, rfl⟩ := h
        simp [mass, List.isEmpty_iff.mp h4]
      · rw [if_neg h4] at h
        rw [Option.some.injEq, Prod.mk.injEq, Prod.mk.injEq] at h
        obtain ⟨rfl, rfl, rfl⟩ := h
        have hperm : (kway_merge_fwd st.ready : Multiset TimeSeriesValue) =
            (st.ready.flatten : Multiset TimeSeriesValue) :=
          Multiset.coe_eq_coe.mpr (kway_merge_fwd_perm st.ready)
        simp only [mass, hperm, Multiset.coe_nil, zero_add, List.flatten_nil, add_zero]
        ac_rfl
  | closeOp =>
    cases h3 : st.progress_locked
    · cases h4 : st.ready with
      | nil =>
        rw [step, close_ok st (by rw [h3]) h4] at h
        rw [Option.some.injEq, Prod.mk.injEq, Prod.mk.injEq] at h
        obtain ⟨rfl, rfl, rfl⟩ := h
        simp only [mass, h4, List.flatten_nil, Multiset.coe_nil, add_zero, zero_add]
      | cons r rest =>
        rw [step, close_none st (by rw [h3]) (by rw [h4]; simp)] at h
        cases h
    · rw [step, close_locked st h3] at h
      rw [Option.some.injEq, Prod.mk.injEq, Prod.mk.injEq] at h
      obtain ⟨rfl, rfl, rfl⟩ := h
      simp

theorem runTrace_mass :
    ∀ (ops : List Op) (st st' : SeqState) (a e : List TimeSeriesValue),
      runTrace st ops = some (st', a, e) →
      (a : Multiset TimeSeriesValue) + mass st = (e : Multiset TimeSeriesValue) + mass st' := by
  intro ops
  induction ops with
  | nil =>
    intro st st' a e h
    simp only [runTrace] at h
    rw [Option.some.injEq, Prod.mk.injEq, Prod.mk.injEq] at h
    obtain ⟨rfl, rfl, rfl⟩ := h
    simp
  | cons op rest ih =>
    intro st st' a e h
    simp only [runTrace] at h
    split at h
    · cases h
    · next x st1 a1 e1 heq =>
      split at h
      · cases h
      · next y st2 a2 e2 heq2 =>
        rw [Option.some.injEq, Prod.mk.injEq, Prod.mk.injEq] at h
        obtain ⟨rfl, rfl, rfl⟩ := h
        have hs := step_mass st op st1 a1 e1 heq
        have ht := ih st1 st2 a2 e2 heq2
        simp only [← Multiset.coe_add]
        have hx : (↑a1 : Multiset TimeSeriesValue) + ↑a2 + mass st =
            (↑a1 + mass st) + ↑a2 := by ac_rfl
        rw [hx, hs]
        have hy : (↑e1 : Multiset TimeSeriesValue) + mass st1 + ↑a2 =
            (↑a2 + mass st1) + ↑e1 := by ac_rfl
        rw [hy, ht]
        ac_rfl

/-! ### Preservation of run sortedness -/

/-- Every run of the state, active or in Ready, is sorted:
`r[i].key ≤ r[i+1].key` for every run `r` and index `i`. -/
def AllSorted (st : SeqState) : Prop :=
  (∀ r ∈ st.runs, RunSorted r) ∧ (∀ r ∈ st.ready, RunSorted r)

instance (st : SeqState) : Decidable (AllSorted st) :=
  inferInstanceAs (Decidable (_ ∧ _))

theorem step_sorted (st : SeqState) (op : Op) (st' : SeqState)
    (a e : List TimeSeriesValue) (hsort : AllSorted st)
    (h : step st op = some (st', a, e)) : AllSorted st' := by
  obtain ⟨hruns, hready⟩ := hsort
  cases op with
  | addOp v =>
    by_cases h1 : v.ts < st.top_timestamp
    · by_cases h2 : st.top_timestamp - v.ts > st.window_size
      · rw [step, add_late st v h1 h2] at h
        rw [Option.some.injEq, Prod.mk.injEq, Prod.mk.injEq] at h
        obtain ⟨rfl, rfl, rfl⟩ := h
        exact ⟨hruns, hready⟩
      · rw [step, add_accept_old st v h1 h2] at h
        rw [Option.some.injEq, Prod.mk.injEq, Prod.mk.injEq] at h
        obtain ⟨rfl, rfl, rfl⟩ := h
        exact ⟨insert_value_sorted st.runs v hruns, hready⟩
    · by_cases h2 : get_checkpoint st v.ts > st.checkpoint
      · cases h3 : st.progress_locked
        · cases h4 : st.ready with
          | nil =>
            rw [step, add_checkpoint st v h1 h2 h3 h4] at h
            rw [Option.some.injEq, Prod.mk.injEq, Prod.mk.injEq] at h
            obtain ⟨rfl, rfl, rfl⟩ := h
            have hcs := checkpointSplit_sorted (fun e => tsvLtB e (cpProbe st)) st.runs hruns
            exact ⟨insert_value_sorted _ v hcs.2, hcs.1⟩
          | cons r rest =>
            rw [step, add_none st v h1 h2 h3 (by rw [h4]; simp)] at h
            cases h
        · rw [step, add_busy st v h1 h2 h3] at h
          rw [Option.some.injEq, Prod.mk.injEq, Prod.mk.injEq] at h
          obtain ⟨rfl, rfl, rfl⟩ := h
          exact ⟨hruns, hready⟩
      · rw [step, add_nocp st v h1 h2] at h
        rw [Option.some.injEq, Prod.mk.injEq, Prod.mk.injEq] at h
        obtain ⟨rfl, rfl, rfl⟩ := h
        exact ⟨insert_value_sorted st.runs v hruns, hready⟩
  | mergeOp =>
    rw [step, mergeStep] at h
    cases h3 : st.progress_locked
    · rw [h3] at h
      simp only [Bool.false_eq_true, if_false] at h
      rw [Option.some.injEq, Prod.mk.injEq, Prod.mk.injEq] at h
      obtain ⟨rfl, rfl, rfl⟩ := h
      exact ⟨hruns, hready⟩
    · rw [h3] at h
      simp only [if_true] at h
      by_cases h4 : st.ready.isEmpty = true
      · rw [if_pos h4] at h
        rw [Option.some.injEq, Prod.mk.injEq, Prod.mk.injEq] at h
        obtain ⟨rfl, rfl, rfl⟩ := h
        exact ⟨hruns, hready⟩
      · rw [if_neg h4] at h
        rw [Option.some.injEq, Prod.mk.injEq, Prod.mk.injEq] at h
        obtain ⟨rfl, rfl, rfl⟩ := h
        exact ⟨hruns, fun r hr => absurd hr (by simp)⟩
  | closeOp =>
    cases h3 : st.progress_locked
    · cases h4 : st.ready with
      | nil =>
        rw [step, close_ok st (by rw [h3]) h4] at h
        rw [Option.some.injEq, Prod.mk.injEq, Prod.mk.injEq] at h
        obtain ⟨rfl, rfl, rfl⟩ := h
        exact ⟨fun r hr => absurd hr (by simp), hruns⟩
      | cons r rest =>
        rw [step, close_none st (by rw [h3]) (by rw [h4]; simp)] at h
        cases h
    · rw [step, close_locked st h3] at h
      rw [Option.some.injEq, Prod.mk.injEq, Prod.mk.injEq] at h
      obtain ⟨rfl, rfl, rfl⟩ := h
      exact ⟨hruns, hready⟩

/-- Filtering each run and flattening is flattening and filtering. -/
theorem flatten_map_filter (p : TimeSeriesValue → Bool) :
    ∀ rs : List SortedRun, (rs.map (fun r => r.filter p)).flatten = rs.flatten.filter p := by
  intro rs
  induction rs with
  | nil => rfl
  | cons r rest ih =>
    simp only [List.map_cons, List.flatten_cons, List.filter_append, ih]

/-! ### Claim theorems -/

/-- C2: for every `add(value)` with `value.ts < top_timestamp`: if the lag
`top_timestamp - value.ts` exceeds `window_size` the call returns
LATE_WRITE, inserts nothing and leaves the whole state (top timestamp,
checkpoint and run set) unchanged; otherwise it returns SUCCESS and
inserts the value into the run set (exactly one new occurrence of the
value) without changing `top_timestamp` (or anything else but the run
set). -/
theorem C2_late_write_policy (st : SeqState) (v : TimeSeriesValue)
    (h : v.ts < st.top_timestamp) :
    (st.top_timestamp - v.ts > st.window_size →
      Sequencer.add st v = some (Status.LATE_WRITE, false, st)) ∧
    (st.top_timestamp - v.ts ≤ st.window_size →
      Sequencer.add st v =
        some (Status.SUCCESS, false, { st with runs := insert_value st.runs v }) ∧
      ((insert_value st.runs v).flatten : Multiset TimeSeriesValue) =
        v ::ₘ (st.runs.flatten : Multiset TimeSeriesValue)) :=
  ⟨fun h2 => add_late st v h h2,
   fun h2 => ⟨add_accept_old st v h (by omega), insert_value_mass st.runs v⟩⟩

/-- Witness for C2 (spec scenario 2: window 10, top 100): `ts = 89` is
rejected as a late write and changes nothing, `ts = 95` is accepted into
the run set with the top timestamp untouched. -/
theorem C2_late_write_policy_witness :
    Sequencer.add ⟨10, 100, 0, [[⟨80,1,1⟩]], [], false⟩ ⟨89,1,2⟩ =
      some (Status.LATE_WRITE, false, ⟨10, 100, 0, [[⟨80,1,1⟩]], [], false⟩) ∧
    Sequencer.add ⟨10, 100, 0, [[⟨80,1,1⟩]], [], false⟩ ⟨95,1,3⟩ =
      some (Status.SUCCESS, false, ⟨10, 100, 0, [[⟨80,1,1⟩,⟨95,1,3⟩]], [], false⟩) := by
  constructor
  · exact (C2_late_write_policy ⟨10, 100, 0, [[⟨80,1,1⟩]], [], false⟩ ⟨89,1,2⟩
      (by decide)).1 (by decide)
  · exact (((C2_late_write_policy ⟨10, 100, 0, [[⟨80,1,1⟩]], [], false⟩ ⟨95,1,3⟩
      (by decide)).2 (by decide)).1).trans (by decide)

/-- C10: when `add(value)` with `value.ts ≥ top_timestamp` finds a new
checkpoint due (the `uint32_t`-narrowed id `get_checkpoint` exceeds
`checkpoint_`) but the progress lock already held, it returns BUSY and
the value is dropped — the run set, Ready and `checkpoint_` are
unchanged — yet `top_timestamp` is still advanced to `value.ts`. -/
theorem C10_busy_add (st : SeqState) (v : TimeSeriesValue)
    (h1 : st.progress_locked = true) (h2 : st.top_timestamp ≤ v.ts)
    (h3 : st.checkpoint < get_checkpoint st v.ts) :
    Sequencer.add st v = some (Status.BUSY, false, { st with top_timestamp := v.ts }) :=
  add_busy st v (by omega) h3 h1

/-- Witness for C10: a staged-checkpoint state rejects `ts = 21` as BUSY,
drops the value, and still advances the high-water mark to 21. -/
theorem C10_busy_add_witness :
    Sequencer.add ⟨10, 5, 0, [[⟨5,1,1⟩]], [[⟨1,1,9⟩]], true⟩ ⟨21,1,2⟩ =
      some (Status.BUSY, false, ⟨10, 21, 0, [[⟨5,1,1⟩]], [[⟨1,1,9⟩]], true⟩) :=
  (C10_busy_add ⟨10, 5, 0, [[⟨5,1,1⟩]], [[⟨1,1,9⟩]], true⟩ ⟨21,1,2⟩ rfl (by decide)
    (by decide)).trans (by decide)

/-- Counterexample to C7 as stated: with one active run whose last key is
`(5,1)`, adding a value with key `(3,1)` does find a run whose last key
is `≥` the incoming key, yet the code does not insert into it — it
creates a new run (`lower_bound` under `top_element_more` looks for a
run whose last key is `≤` the incoming key, not `≥`). -/
theorem C7_counterexample :
    runTrace (initSeq 100) [Op.addOp ⟨5,1,1⟩, Op.addOp ⟨3,1,2⟩] =
      some (⟨100, 5, 0, [[⟨5,1,1⟩],[⟨3,1,2⟩]], [], false⟩,
            [⟨5,1,1⟩, ⟨3,1,2⟩], []) ∧
    (∃ r ∈ ([[⟨5,1,1⟩]] : List SortedRun), keyLeB ⟨3,1,2⟩ (runLast r) = true) ∧
    ([[⟨5,1,1⟩],[⟨3,1,2⟩]] : List SortedRun).length = 2 := by
  refine ⟨by decide, ⟨[⟨5,1,1⟩], by decide, by decide⟩, rfl⟩

/-- C7 (amended): after the window check succeeds the value is inserted
into the first run (in run-set order) whose last element's key is `≤`
the incoming key — under the run set's descending-by-last-key ordering
that is the run with the largest last key still `≤` the incoming key —
and if no such run exists (every last key is `>` the incoming key) a new
run containing only the value is appended to the run set. -/
theorem C7_insert_lower_bound (runs : List SortedRun) (v : TimeSeriesValue)
    (hdesc : runs.Pairwise (fun r1 r2 => keyLeB (runLast r2) (runLast r1) = true)) :
    ((∀ r ∈ runs, tsvLtB v (runLast r) = true) → insert_value runs v = runs ++ [[v]]) ∧
    (∀ r0 ∈ runs, keyLeB (runLast r0) v = true →
      ∃ pre r suf, runs = pre ++ r :: suf ∧
        insert_value runs v = pre ++ (r ++ [v]) :: suf ∧
        keyLeB (runLast r) v = true ∧
        (∀ q ∈ runs, keyLeB (runLast q) v = true →
          keyLeB (runLast q) (runLast r) = true)) := by
  constructor
  · intro hall
    unfold insert_value
    rw [List.dropWhile_eq_nil_iff.mpr hall]
  · intro r0 hr0 hle
    cases hdw : runs.dropWhile (fun x => tsvLtB v (runLast x)) with
    | nil =>
      have hall := List.dropWhile_eq_nil_iff.mp hdw r0 hr0
      have hf : tsvLtB v (runLast r0) = false :=
        (not_tsvLtB_iff_keyLeB v (runLast r0)).mpr hle
      rw [hf] at hall
      cases hall
    | cons r suf =>
      have hsplit := List.takeWhile_append_dropWhile (fun x => tsvLtB v (runLast x)) runs
      rw [hdw] at hsplit
      refine ⟨runs.takeWhile (fun x => tsvLtB v (runLast x)), r, suf, hsplit.symm, ?_, ?_, ?_⟩
      · unfold insert_value
        rw [hdw]
      · have := dropWhile_head_false (fun x => tsvLtB v (runLast x)) runs r suf hdw
        rwa [not_tsvLtB_iff_keyLeB] at this
      · intro q hq hqle
        rw [← hsplit] at hq
        rcases List.mem_append.mp hq with hq | hq
        · exfalso
          have htw := List.mem_takeWhile_imp hq
          have hf : tsvLtB v (runLast q) = false :=
            (not_tsvLtB_iff_keyLeB v (runLast q)).mpr hqle
          rw [hf] at htw
          cases htw
        · rcases List.mem_cons.mp hq with rfl | hq
          · exact keyLeB_refl _
          · have hsub : (r :: suf).Pairwise
                (fun r1 r2 => keyLeB (runLast r2) (runLast r1) = true) := by
              refine List.Pairwise.sublist ?_ hdesc
              rw [← hsplit]
              exact List.sublist_append_right _ _
            exact List.rel_of_pairwise_cons hsub hq

/-- Witness for C7 (amended): with descending runs ending in keys `(5,1)`
and `(3,1)`, the value `(4,1)` is appended to the run with the largest
last key `≤ (4,1)`; with a single run ending in `(5,1)`, the value
`(3,1)` opens a new run. -/
theorem C7_insert_lower_bound_witness :
    (insert_value [[⟨5,1,1⟩]] ⟨3,1,2⟩ = [[⟨5,1,1⟩]] ++ [[⟨3,1,2⟩]]) ∧
    (∃ pre r suf, ([[⟨5,1,1⟩],[⟨3,1,2⟩]] : List SortedRun) = pre ++ r :: suf ∧
      insert_value [[⟨5,1,1⟩],[⟨3,1,2⟩]] ⟨4,1,9⟩ = pre ++ (r ++ [⟨4,1,9⟩]) :: suf ∧
      keyLeB (runLast r) ⟨4,1,9⟩ = true ∧
      (∀ q ∈ ([[⟨5,1,1⟩],[⟨3,1,2⟩]] : List SortedRun),
        keyLeB (runLast q) ⟨4,1,9⟩ = true → keyLeB (runLast q) (runLast r) = true)) :=
  ⟨(C7_insert_lower_bound [[⟨5,1,1⟩]] ⟨3,1,2⟩ (by decide)).1 (by decide),
   (C7_insert_lower_bound [[⟨5,1,1⟩],[⟨3,1,2⟩]] ⟨4,1,9⟩ (by decide)).2
     [⟨3,1,2⟩] (by decide) (by decide)⟩

/-- C4: merging sorted runs forward emits all their elements in ascending
`(timestamp, param_id)` order and backward in descending order (each run
being consumed tail-to-head), each element exactly once (the output is a
permutation of the input, so together with the deterministic
by-run-index tie-break the emitted sequence is a function of the input);
in particular merging `A = {(1,1),(3,3)}`, `B = {(2,2),(4,4)}` backward
emits the payloads `4, 3, 2, 1`. -/
theorem C4_kway_merge_direction :
    (∀ rs : List SortedRun, (∀ r ∈ rs, RunSorted r) →
      (kway_merge_fwd rs).Pairwise (fun a b => keyLeB a b = true) ∧
      ((kway_merge_fwd rs : Multiset TimeSeriesValue) =
        (rs.flatten : Multiset TimeSeriesValue)) ∧
      (kway_merge_bwd rs).Pairwise (fun a b => keyGeB a b = true) ∧
      ((kway_merge_bwd rs : Multiset TimeSeriesValue) =
        (rs.flatten : Multiset TimeSeriesValue))) ∧
    (kway_merge_bwd [[⟨1,1,1⟩,⟨3,3,3⟩],[⟨2,2,2⟩,⟨4,4,4⟩]]).map
      (fun v => v.value) = [4,3,2,1] := by
  constructor
  · intro rs h
    exact ⟨kway_merge_fwd_sorted rs h,
      Multiset.coe_eq_coe.mpr (kway_merge_fwd_perm rs),
      kway_merge_bwd_sorted rs h,
      Multiset.coe_eq_coe.mpr (kway_merge_bwd_perm rs)⟩
  · decide

/-- Witness for C4: both directions on the two concrete sorted runs of
the spec scenario. -/
theorem C4_kway_merge_direction_witness :
    (kway_merge_fwd [[⟨1,1,1⟩,⟨3,3,3⟩],[⟨2,2,2⟩,⟨4,4,4⟩]]).Pairwise
      (fun a b => keyLeB a b = true) ∧
    (kway_merge_bwd [[⟨1,1,1⟩,⟨3,3,3⟩],[⟨2,2,2⟩,⟨4,4,4⟩]]).Pairwise
      (fun a b => keyGeB a b = true) := by
  have h := C4_kway_merge_direction.1 [[⟨1,1,1⟩,⟨3,3,3⟩],[⟨2,2,2⟩,⟨4,4,4⟩]] (by decide)
  exact ⟨h.1, h.2.2.1⟩

/-- Counterexample to C9 as stated: `close` moves active runs into Ready
without regard to their window ids.  After admitting `ts = 5` (window id
0) and closing, Ready holds a value whose window id equals the current
`checkpoint_` (both 0), so the window id is not strictly less. -/
theorem C9_counterexample :
    runTrace (initSeq 10) [Op.addOp ⟨5,1,1⟩, Op.closeOp] =
      some (⟨10, 5, 0, [], [[⟨5,1,1⟩]], true⟩, [⟨5,1,1⟩], []) ∧
    ¬ ((5 : Nat) / 10 < (0 : Nat)) := ⟨by decide, by decide⟩

/-- C9 (amended): after a checkpoint transition (the lock acquired, with
a new checkpoint id larger than the previous one), every value in Ready
has window id `⌊ts / window_size⌋` strictly below the new
`checkpoint_`.  The corresponding statement after `close` fails (see the
counterexample). -/
theorem C9_ready_below_checkpoint (st : SeqState) (new_cp : Nat) (st' : SeqState)
    (hw : 0 < st.window_size) (hcp : st.checkpoint < new_cp)
    (h : make_checkpoint new_cp st = some (st', true)) :
    ∀ r ∈ st'.ready, ∀ v ∈ r, v.ts / st'.window_size < st'.checkpoint := by
  unfold make_checkpoint at h
  by_cases h1 : st.progress_locked = true
  · rw [if_pos h1] at h
    rw [Option.some.injEq, Prod.mk.injEq] at h
    cases h.2
  · rw [if_neg h1] at h
    by_cases h2 : st.ready.isEmpty = true
    · rw [if_neg (by simp [h2])] at h
      rw [Option.some.injEq, Prod.mk.injEq] at h
      obtain ⟨hst, -⟩ := h
      subst hst
      intro r hr v hv
      have hq := checkpointSplit_ready_pred
        (fun e => tsvLtB e ⟨st.checkpoint * st.window_size, AKU_LIMITS_MAX_ID, 0⟩)
        st.runs r hr v hv
      simp only [tsvLtB, decide_eq_true_eq] at hq
      have hts : v.ts ≤ st.checkpoint * st.window_size := by
        rcases hq with hq | hq
        · exact le_of_lt hq
        · exact le_of_eq hq.1
      have hlt : v.ts < new_cp * st.window_size := by
        have hmul : st.checkpoint * st.window_size < new_cp * st.window_size :=
          mul_lt_mul_of_pos_right hcp hw
        omega
      have hdiv := (Nat.div_lt_iff_lt_mul hw).mpr hlt
      simpa using hdiv
    · rw [if_pos (by simp [h2])] at h
      cases h

/-- Witness for C9 (amended): in the checkpoint transition from
checkpoint 1 to 2 under window 10, the staged value with ts 5 has window
id 0, strictly below the new checkpoint id. -/
theorem C9_ready_below_checkpoint_witness : (5 : Nat) / 10 < 2 :=
  C9_ready_below_checkpoint
    ⟨10, 18, 1, [[⟨5,1,1⟩,⟨8,1,2⟩,⟨12,1,3⟩,⟨18,1,4⟩]], [], false⟩ 2
    ⟨10, 18, 2, [[⟨12,1,3⟩,⟨18,1,4⟩]], [[⟨5,1,1⟩,⟨8,1,2⟩]], true⟩
    (by decide) (by decide) (by decide)
    [⟨5,1,1⟩,⟨8,1,2⟩] (by decide) ⟨5,1,1⟩ (by decide)

/-- C1: an `add(value)` that triggers a checkpoint transition
(`value.ts ≥ top_timestamp`, new checkpoint id — the `uint32_t`-narrowed
quotient `get_checkpoint` — above `checkpoint_`, progress lock acquired)
partitions every active (sorted, non-empty) run
at the position of its first element with key
`≥ (old_top, MAX_PARAM_ID)` where `old_top` is the previous
`checkpoint_ * window_size`: the elements strictly below the probe (the
prefix) move to Ready, the rest (the suffix) stays active — an
all-below-probe run moves whole, an all-at-or-above-probe run stays
whole — and the added value is then inserted into the new active run
set.  In particular, for the single run `{5,8,12,18}` under window 10,
adding `ts = 21` leaves Ready `= {5,8}` and the active run
`= {12,18,21}`. -/
theorem C1_checkpoint_split (st : SeqState) (v : TimeSeriesValue)
    (h1 : st.top_timestamp ≤ v.ts) (h2 : st.checkpoint < get_checkpoint st v.ts)
    (h3 : st.progress_locked = false) (h4 : st.ready = [])
    (h5 : ∀ r ∈ st.runs, RunSorted r ∧ r ≠ []) :
    (Sequencer.add st v =
      some (Status.SUCCESS, true,
        { window_size := st.window_size
          top_timestamp := v.ts
          checkpoint := get_checkpoint st v.ts
          runs := insert_value
            ((st.runs.map (fun r => r.filter (fun e => !tsvLtB e (cpProbe st)))).filter
              (fun r => !r.isEmpty)) v
          ready := (st.runs.map (fun r => r.filter (fun e => tsvLtB e (cpProbe st)))).filter
            (fun r => !r.isEmpty)
          progress_locked := true })) ∧
    Sequencer.add ⟨10, 18, 1, [[⟨5,1,1⟩,⟨8,1,2⟩,⟨12,1,3⟩,⟨18,1,4⟩]], [], false⟩ ⟨21,1,5⟩ =
      some (Status.SUCCESS, true,
        ⟨10, 21, 2, [[⟨12,1,3⟩,⟨18,1,4⟩,⟨21,1,5⟩]], [[⟨5,1,1⟩,⟨8,1,2⟩]], true⟩) := by
  constructor
  · have hadd := add_checkpoint st v (by omega) h2 h3 h4
    have hdc : ∀ a b : TimeSeriesValue, keyLeB a b = true →
        tsvLtB b (cpProbe st) = true → tsvLtB a (cpProbe st) = true := by
      intro a b hab hb
      rw [tsvLtB_iff] at hb ⊢
      rw [keyLeB_iff] at hab
      omega
    have hsplit := checkpointSplit_eq_filter (fun e => tsvLtB e (cpProbe st)) hdc st.runs h5
    rw [hadd, hsplit]
  · decide

/-- Witness for C1: the spec scenario itself discharges the general
hypotheses. -/
theorem C1_checkpoint_split_witness :
    Sequencer.add ⟨10, 18, 1, [[⟨5,1,1⟩,⟨8,1,2⟩,⟨12,1,3⟩,⟨18,1,4⟩]], [], false⟩ ⟨21,1,5⟩ =
      some (Status.SUCCESS, true,
        { window_size := 10
          top_timestamp := 21
          checkpoint := 2
          runs := insert_value
            ((([[⟨5,1,1⟩,⟨8,1,2⟩,⟨12,1,3⟩,⟨18,1,4⟩]] : List SortedRun).map
              (fun r => r.filter (fun e => !tsvLtB e
                (cpProbe ⟨10, 18, 1, [[⟨5,1,1⟩,⟨8,1,2⟩,⟨12,1,3⟩,⟨18,1,4⟩]], [], false⟩)))).filter
              (fun r => !r.isEmpty)) ⟨21,1,5⟩
          ready := (([[⟨5,1,1⟩,⟨8,1,2⟩,⟨12,1,3⟩,⟨18,1,4⟩]] : List SortedRun).map
            (fun r => r.filter (fun e => tsvLtB e
              (cpProbe ⟨10, 18, 1, [[⟨5,1,1⟩,⟨8,1,2⟩,⟨12,1,3⟩,⟨18,1,4⟩]], [], false⟩)))).filter
            (fun r => !r.isEmpty)
          progress_locked := true }) :=
  (C1_checkpoint_split ⟨10, 18, 1, [[⟨5,1,1⟩,⟨8,1,2⟩,⟨12,1,3⟩,⟨18,1,4⟩]], [], false⟩ ⟨21,1,5⟩
    (by decide) (by decide) rfl rfl (by decide)).1

/-- Counterexample to the first half of C6 as stated: the search
predicate is strict at the lower bound, so with `lowerbound = 0` a value
with `ts = 0` sitting in an active run (a reachable state) is not
emitted, although it belongs to the set of values in active runs. -/
theorem C6_counterexample :
    runTrace (initSeq 10) [Op.addOp ⟨0,1,7⟩] =
      some (⟨10, 0, 0, [[⟨0,1,7⟩]], [], false⟩, [⟨0,1,7⟩], []) ∧
    Sequencer.search ⟨10, 0, 0, [[⟨0,1,7⟩]], [], false⟩
      ⟨0, U64MAX, fun _ => true, Dir.forward⟩ = [] ∧
    (⟨0,1,7⟩ : TimeSeriesValue) ∈ ([[⟨0,1,7⟩]] : List SortedRun).flatten :=
  ⟨by decide, by decide, by decide⟩

/-- C6 (amended): for a state with no in-flight checkpoint, `search` with
`param_pred ≡ MATCH`, `lowerbound = 0` and `upperbound` the maximum u64
emits exactly the values of the active runs whose timestamp satisfies
`0 < ts < 2^64 - 1` (strictness at both bounds excludes the endpoint
values), in key order; and for every query, a value is emitted iff
`lowerbound < ts < upperbound` (strict on both ends) and
`param_pred(param) = MATCH`. -/
theorem C6_search_semantics (st : SeqState)
    (hlock : st.progress_locked = false) (hready : st.ready = [])
    (hs : ∀ r ∈ st.runs, RunSorted r) :
    (∀ pred : Nat → Bool, (∀ p, pred p = true) →
      ((Sequencer.search st ⟨0, U64MAX, pred, Dir.forward⟩ : Multiset TimeSeriesValue) =
        (st.runs.flatten.filter
          (fun v => decide (0 < v.ts) && decide (v.ts < U64MAX)) :
            Multiset TimeSeriesValue)) ∧
      (Sequencer.search st ⟨0, U64MAX, pred, Dir.forward⟩).Pairwise
        (fun a b => keyLeB a b = true)) ∧
    (∀ (q : SearchQuery) (v : TimeSeriesValue),
      v ∈ Sequencer.search st q ↔
        (v ∈ st.runs.flatten ∧ q.lowerbound < v.ts ∧ v.ts < q.upperbound ∧
          q.param_pred v.id = true)) := by
  constructor
  · intro pred hpred
    have hunfold : Sequencer.search st ⟨0, U64MAX, pred, Dir.forward⟩ =
        kway_merge_fwd (st.runs.map (fun r =>
          r.filter (searchPredB ⟨0, U64MAX, pred, Dir.forward⟩))) := rfl
    constructor
    · rw [hunfold]
      rw [Multiset.coe_eq_coe.mpr (kway_merge_fwd_perm _)]
      rw [flatten_map_filter]
      congr 1
      apply List.filter_congr
      intro a _
      simp [searchPredB, hpred a.id, gt_iff_lt]
    · rw [hunfold]
      apply kway_merge_fwd_sorted
      intro r hr
      obtain ⟨r0, hr0, rfl⟩ := List.mem_map.mp hr
      exact List.Pairwise.filter _ (hs r0 hr0)
  · intro q v
    have hmem : v ∈ Sequencer.search st q ↔
        v ∈ (st.runs.map (fun r => r.filter (searchPredB q))).flatten := by
      unfold Sequencer.search
      cases q.direction
      · exact (kway_merge_fwd_perm _).mem_iff
      · exact (kway_merge_bwd_perm _).mem_iff
    rw [hmem, flatten_map_filter, List.mem_filter]
    simp [searchPredB, and_assoc, gt_iff_lt]

/-- Witness for C6 (amended): a concrete two-value state; the unrestricted
forward search emits both values, and the bounded query admits `(12,1)`. -/
theorem C6_search_semantics_witness :
    ((Sequencer.search ⟨10, 15, 1, [[⟨3,1,1⟩,⟨12,1,2⟩]], [], false⟩
        ⟨0, U64MAX, fun _ => true, Dir.forward⟩ : Multiset TimeSeriesValue) =
      ((([[⟨3,1,1⟩,⟨12,1,2⟩]] : List SortedRun).flatten.filter
        (fun v => decide (0 < v.ts) && decide (v.ts < U64MAX))) :
          Multiset TimeSeriesValue)) ∧
    ((⟨12,1,2⟩ : TimeSeriesValue) ∈
        Sequencer.search ⟨10, 15, 1, [[⟨3,1,1⟩,⟨12,1,2⟩]], [], false⟩
          ⟨5, 20, fun _ => true, Dir.backward⟩ ↔
      ((⟨12,1,2⟩ : TimeSeriesValue) ∈ ([[⟨3,1,1⟩,⟨12,1,2⟩]] : List SortedRun).flatten ∧
        5 < 12 ∧ 12 < 20 ∧ true = true)) := by
  have h := C6_search_semantics ⟨10, 15, 1, [[⟨3,1,1⟩,⟨12,1,2⟩]], [], false⟩ rfl rfl (by decide)
  exact ⟨(h.1 (fun _ => true) (fun _ => rfl)).1,
    h.2 ⟨5, 20, fun _ => true, Dir.backward⟩ ⟨12,1,2⟩⟩

/-- C8: every operation — `add` (including a checkpoint transition),
`close` and `merge` — preserves the invariant that every run, active or
in Ready, is sorted by key; and when `add`'s lower-bound search over the
run set finds a run (the head of the `dropWhile`), the value is appended
to exactly that run and that run's last key is `≤` the appended key. -/
theorem C8_sorted_invariant :
    (∀ (st : SeqState) (op : Op) (st' : SeqState) (a e : List TimeSeriesValue),
      AllSorted st → step st op = some (st', a, e) → AllSorted st') ∧
    (∀ (runs : List SortedRun) (v : TimeSeriesValue) (r : SortedRun) (t : List SortedRun),
      runs.dropWhile (fun x => tsvLtB v (runLast x)) = r :: t →
      keyLeB (runLast r) v = true ∧
      insert_value runs v =
        runs.takeWhile (fun x => tsvLtB v (runLast x)) ++ (r ++ [v]) :: t) := by
  constructor
  · intro st op st' a e hsort h
    exact step_sorted st op st' a e hsort h
  · intro runs v r t hdw
    refine ⟨?_, ?_⟩
    · have h := dropWhile_head_false _ runs r t hdw
      rwa [not_tsvLtB_iff_keyLeB] at h
    · unfold insert_value
      rw [hdw]

/-- Witness for C8: the checkpoint-triggering add of the C1 scenario
preserves sortedness of all runs, and the lower-bound fact at a concrete
run set. -/
theorem C8_sorted_invariant_witness :
    AllSorted ⟨10, 21, 2, [[⟨12,1,3⟩,⟨18,1,4⟩,⟨21,1,5⟩]], [[⟨5,1,1⟩,⟨8,1,2⟩]], true⟩ ∧
    (keyLeB (runLast [⟨3,1,2⟩]) ⟨4,1,9⟩ = true ∧
      insert_value [[⟨5,1,1⟩],[⟨3,1,2⟩]] ⟨4,1,9⟩ =
        ([[⟨5,1,1⟩],[⟨3,1,2⟩]] : List SortedRun).takeWhile
          (fun x => tsvLtB ⟨4,1,9⟩ (runLast x)) ++ ([⟨3,1,2⟩] ++ [⟨4,1,9⟩]) :: []) :=
  ⟨C8_sorted_invariant.1 ⟨10, 18, 1, [[⟨5,1,1⟩,⟨8,1,2⟩,⟨12,1,3⟩,⟨18,1,4⟩]], [], false⟩
      (Op.addOp ⟨21,1,5⟩)
      ⟨10, 21, 2, [[⟨12,1,3⟩,⟨18,1,4⟩,⟨21,1,5⟩]], [[⟨5,1,1⟩,⟨8,1,2⟩]], true⟩
      [⟨21,1,5⟩] [] (by decide) (by decide),
   C8_sorted_invariant.2 [[⟨5,1,1⟩],[⟨3,1,2⟩]] ⟨4,1,9⟩ [⟨3,1,2⟩] [] (by decide)⟩

/-- C3: for any driver trace of operations from a fresh sequencer, if
`close` then succeeds with a token owning the progress lock (so `close`
moved every active run into Ready and cleared the active run set) and
`merge` is called with that token, then every value admitted by a
successful `add` has been emitted exactly once, counting the earlier
checkpoint merges of the trace together with the final merge. -/
theorem C3_close_merge_exactly_once (W : Nat) (ops : List Op)
    (st stc stf : SeqState) (adm em emf : List TimeSeriesValue)
    (htrace : runTrace (initSeq W) ops = some (st, adm, em))
    (hclose : Sequencer.close st = some (true, stc))
    (hmerge : mergeStep stc = (stf, emf)) :
    (stc.ready = st.runs ∧ stc.runs = []) ∧
    (adm : Multiset TimeSeriesValue) =
      (em : Multiset TimeSeriesValue) + (emf : Multiset TimeSeriesValue) ∧
    stf.ready = [] := by
  -- structure of the successful close
  have hcl : st.progress_locked = false ∧ st.ready = [] ∧
      stc = { st with ready := st.runs, runs := [], progress_locked := true } := by
    by_cases hl : st.progress_locked = true
    · rw [close_locked st hl] at hclose
      rw [Option.some.injEq, Prod.mk.injEq] at hclose
      cases hclose.1
    · have hl' : st.progress_locked = false := by
        revert hl; cases st.progress_locked <;> simp
      cases hrd : st.ready with
      | nil =>
        rw [close_ok st hl' hrd] at hclose
        rw [Option.some.injEq, Prod.mk.injEq] at hclose
        exact ⟨hl', rfl, hclose.2.symm⟩
      | cons r rest =>
        rw [close_none st hl' (by rw [hrd]; simp)] at hclose
        cases hclose
  obtain ⟨hl, hrd, hstc⟩ := hcl
  have hmass := runTrace_mass ops (initSeq W) st adm em htrace
  have hmass' : (adm : Multiset TimeSeriesValue) =
      (em : Multiset TimeSeriesValue) + (st.runs.flatten : Multiset TimeSeriesValue) := by
    simp only [mass, initSeq, List.flatten_nil, Multiset.coe_nil, add_zero, hrd] at hmass
    simpa using hmass
  subst hstc
  refine ⟨⟨rfl, rfl⟩, ?_, ?_⟩
  · -- conservation through the final merge
    rw [mergeStep] at hmerge
    simp only [if_true] at hmerge
    by_cases h4 : st.runs.isEmpty = true
    · rw [if_pos (by simpa using h4)] at hmerge
      rw [Prod.mk.injEq] at hmerge
      obtain ⟨-, hemf⟩ := hmerge
      rw [← hemf]
      rw [List.isEmpty_iff.mp h4] at hmass'
      simpa using hmass'
    · rw [if_neg (by simpa using h4)] at hmerge
      rw [Prod.mk.injEq] at hmerge
      obtain ⟨-, hemf⟩ := hmerge
      rw [← hemf]
      rw [hmass']
      congr 1
      exact (Multiset.coe_eq_coe.mpr (kway_merge_fwd_perm st.runs)).symm
  · rw [mergeStep] at hmerge
    simp only [if_true] at hmerge
    by_cases h4 : st.runs.isEmpty = true
    · rw [if_pos (by simpa using h4)] at hmerge
      rw [Prod.mk.injEq] at hmerge
      rw [← hmerge.1]
      exact List.isEmpty_iff.mp h4
    · rw [if_neg (by simpa using h4)] at hmerge
      rw [Prod.mk.injEq] at hmerge
      rw [← hmerge.1]

/-- Witness for C3: the basic ingest-and-flush scenario of the spec
(window 10; values at ts 1, 2, 15; checkpoint merge emits nothing since
the new window kept all values active; close + merge emits all three
exactly once). -/
theorem C3_close_merge_exactly_once_witness :
    (([[⟨1,1,1⟩,⟨2,2,2⟩,⟨15,1,3⟩]] : List SortedRun) =
        [[⟨1,1,1⟩,⟨2,2,2⟩,⟨15,1,3⟩]] ∧ ([] : List SortedRun) = []) ∧
    (([⟨1,1,1⟩,⟨2,2,2⟩,⟨15,1,3⟩] : List TimeSeriesValue) : Multiset TimeSeriesValue) =
      (([] : List TimeSeriesValue) : Multiset TimeSeriesValue) +
      (([⟨1,1,1⟩,⟨2,2,2⟩,⟨15,1,3⟩] : List TimeSeriesValue) : Multiset TimeSeriesValue) ∧
    ([] : List SortedRun) = [] := by
  have h := C3_close_merge_exactly_once 10
    [Op.addOp ⟨1,1,1⟩, Op.addOp ⟨2,2,2⟩, Op.addOp ⟨15,1,3⟩, Op.mergeOp]
    ⟨10, 15, 1, [[⟨1,1,1⟩,⟨2,2,2⟩,⟨15,1,3⟩]], [], false⟩
    ⟨10, 15, 1, [], [[⟨1,1,1⟩,⟨2,2,2⟩,⟨15,1,3⟩]], true⟩
    ⟨10, 15, 1, [], [], false⟩
    [⟨1,1,1⟩,⟨2,2,2⟩,⟨15,1,3⟩] [] [⟨1,1,1⟩,⟨2,2,2⟩,⟨15,1,3⟩]
    (by decide) (by decide) (by decide)
  exact h

/-! ### The wire-protocol state machine

Modelled from the spec: the implementation file of the incremental
protocol state machine (`protocolparser.cpp`) is not among the sources —
only its unit tests are — so the machine below follows spec §4.E: a
byte-at-a-time state machine with states ExpectType / ReadInt /
ReadFloat / ReadBulkLen / ReadBulkBody, CRLF-terminated numeric tokens,
length-prefixed bulk strings, `write_double` after every third completed
numeric token and `add_bulk_string` after every completed bulk.  Numeric
values destined for the first two `write_double` arguments are decimal
digit strings converted to naturals; the third (the double) is kept as
its raw token bytes, a faithful stand-in since the binary double is a
function of those bytes. -/

/-- Modelled from the spec: the value of a decimal digit string. -/
def charsToNat (cs : List Char) : Nat :=
  cs.foldl (fun acc c => acc * 10 + (c.toNat - 48)) 0

/-- Modelled from the spec: the characters admitted inside a numeric
token (digits; for floats also an optional sign and a decimal point). -/
def validNumChar (isFloat : Bool) (c : Char) : Bool :=
  c.isDigit || (isFloat && (c = '.' || c = '+' || c = '-'))

/-- Modelled from the spec: a consumer callback
(`write_double(param, ts, value)` or `add_bulk_string(bytes, n)`). -/
inductive PEvent where
  | write_double (param : Nat) (ts : Nat) (value : List Char)
  | add_bulk_string (s : List Char)
deriving Repr, DecidableEq

/-- Modelled from the spec: the machine state.  `pending` holds the
completed numeric tokens of the current record (fewer than three). -/
inductive PState where
  | expectType (pending : List (List Char))
  | readNum (isFloat : Bool) (pending : List (List Char)) (acc : List Char)
  | numLF (isFloat : Bool) (pending : List (List Char)) (acc : List Char)
  | readBulkLen (pending : List (List Char)) (acc : List Char)
  | bulkLenLF (pending : List (List Char)) (n : Nat)
  | readBulkBody (pending : List (List Char)) (remaining : Nat) (scratch : List Char)
  | bulkCR (pending : List (List Char)) (scratch : List Char)
  | bulkLF (pending : List (List Char)) (scratch : List Char)
  | perror
deriving Repr, DecidableEq

/-- Modelled from the spec: `start()` leaves the machine expecting a
type byte with no pending tokens. -/
def pstart : PState := PState.expectType []

/-- Modelled from the spec: consume one byte, returning the next state
and the consumer callbacks it triggers.  A malformed byte moves to the
fatal error state, which absorbs all further input. -/
def pstep : PState → Char → PState × List PEvent
  | PState.expectType pending, c =>
    if c = ':' then (PState.readNum false pending [], [])
    else if c = '+' then (PState.readNum true pending [], [])
    else if c = '$' then (PState.readBulkLen pending [], [])
    else (PState.perror, [])
  | PState.readNum isFloat pending acc, c =>
    if c = '\r' then (PState.numLF isFloat pending acc, [])
    else if validNumChar isFloat c then (PState.readNum isFloat pending (acc ++ [c]), [])
    else (PState.perror, [])
  | PState.numLF isFloat pending acc, c =>
    if c = '\n' then
      match pending with
      | [p0, p1] =>
        (PState.expectType [], [PEvent.write_double (charsToNat p0) (charsToNat p1) acc])
      | _ => (PState.expectType (pending ++ [acc]), [])
    else (PState.perror, [])
  | PState.readBulkLen pending acc, c =>
    if c = '\r' then (PState.bulkLenLF pending (charsToNat acc), [])
    else if c.isDigit then (PState.readBulkLen pending (acc ++ [c]), [])
    else (PState.perror, [])
  | PState.bulkLenLF pending n, c =>
    if c = '\n' then
      if n = 0 then (PState.bulkCR pending [], [])
      else (PState.readBulkBody pending n [], [])
    else (PState.perror, [])
  | PState.readBulkBody pending remaining scratch, c =>
    if remaining ≤ 1 then (PState.bulkCR pending (scratch ++ [c]), [])
    else (PState.readBulkBody pending (remaining - 1) (scratch ++ [c]), [])
  | PState.bulkCR pending scratch, c =>
    if c = '\r' then (PState.bulkLF pending scratch, [])
    else (PState.perror, [])
  | PState.bulkLF pending scratch, c =>
    if c = '\n' then (PState.expectType pending, [PEvent.add_bulk_string scratch])
    else (PState.perror, [])
  | PState.perror, _ => (PState.perror, [])

/-- Modelled from the spec: `parse_next` over one PDU — fold `pstep`
over the bytes, concatenating the emitted callbacks in order. -/
def pfeed : PState → List Char → PState × List PEvent
  | s, [] => (s, [])
  | s, c :: rest =>
    ((pfeed (pstep s c).1 rest).1, (pstep s c).2 ++ (pfeed (pstep s c).1 rest).2)

/-- C5: for every byte stream and every split of it into two PDUs `a`
and `b`, feeding `a` then `b` reaches the same state and produces the
same callback sequence (same callbacks, same arguments, same order) as
feeding the concatenation in one PDU, from any starting state — a
numeric token or a bulk-string body may thus be cut at any byte.  The
concrete conjuncts replay the repository's own PDU-split unit tests
(`Test_protocol_parse_2` and `Test_protocol_parse_bulk_strings`). -/
theorem C5_parser_incremental :
    (∀ (s : PState) (a b : List Char),
      pfeed s (a ++ b) =
        ((pfeed (pfeed s a).1 b).1, (pfeed s a).2 ++ (pfeed (pfeed s a).1 b).2)) ∧
    (pfeed pstart (":1\r\n:2\r\n+34.5\r\n:6\r\n:7\r\n+8.9".toList)).2 =
      [PEvent.write_double 1 2 ("34.5".toList)] ∧
    (pfeed (pfeed pstart (":1\r\n:2\r\n+34.5\r\n:6\r\n:7\r\n+8.9".toList)).1
        ("\r\n:10\r\n:11\r\n+12.13\r\n:14\r\n:15\r\n+16.7\r\n".toList)).2 =
      [PEvent.write_double 6 7 ("8.9".toList),
       PEvent.write_double 10 11 ("12.13".toList),
       PEvent.write_double 14 15 ("16.7".toList)] ∧
    (pfeed pstart ("$12\r\n123456".toList)).2 = [] ∧
    (pfeed (pfeed pstart ("$12\r\n123456".toList)).1 ("789ABC\r\n".toList)).2 =
      [PEvent.add_bulk_string ("123456789ABC".toList)] := by
  refine ⟨?_, by decide, by decide, by decide, by decide⟩
  intro s a
  induction a generalizing s with
  | nil => intro b; simp [pfeed]
  | cons c t ih =>
    intro b
    rw [List.cons_append]
    simp only [pfeed]
    rw [ih ((pstep s c).1) b]
    simp [List.append_assoc]

end Akumuli
